import Mathlib

/-!
Verification of the book-text chunking engine (`src/lib/chunker.ts`).

Strings are modelled as `List Char` with character positions as `Nat`
(the inputs of interest are ASCII, where JavaScript UTF-16 code-unit
indices coincide with character indices).  JavaScript regular-expression
matching for the five fixed heading patterns is modelled by a small
backtracking engine in which every quantifier ranges over a character
class, which is exactly the shape of the source's patterns.
-/

abbrev Str := List Char

/-- JavaScript `\s` (also the character set removed by `String.trim`). -/
def isJsWs (c : Char) : Bool :=
  c.toNat = 32 || c.toNat = 9 || c.toNat = 10 || c.toNat = 11 || c.toNat = 12 ||
  c.toNat = 13 || c.toNat = 0xa0 || c.toNat = 0x1680 ||
  (0x2000 ≤ c.toNat && c.toNat ≤ 0x200a) || c.toNat = 0x2028 || c.toNat = 0x2029 ||
  c.toNat = 0x202f || c.toNat = 0x205f || c.toNat = 0x3000 || c.toNat = 0xfeff

/-- JavaScript line terminators (what multiline `^`/`$` and `.` care about). -/
def isLineTerm (c : Char) : Bool :=
  c.toNat = 10 || c.toNat = 13 || c.toNat = 0x2028 || c.toNat = 0x2029

def isDigitChar (c : Char) : Bool := 48 ≤ c.toNat && c.toNat ≤ 57

def isUpperChar (c : Char) : Bool := 65 ≤ c.toNat && c.toNat ≤ 90

def isAsciiLetterChar (c : Char) : Bool :=
  isUpperChar c || (97 ≤ c.toNat && c.toNat ≤ 122)

def isRomanChar (c : Char) : Bool :=
  c == 'I' || c == 'V' || c == 'X' || c == 'L' || c == 'C' || c == 'D' || c == 'M'

def isSentEnd (c : Char) : Bool := c == '.' || c == '!' || c == '?'

/-- The class `[\.\:\s]` used after the heading number token. -/
def isHeadPunct (c : Char) : Bool := c == '.' || c == ':' || isJsWs c

/-- The class matched by `.` (anything but a line terminator). -/
def isDotChar (c : Char) : Bool := !(isLineTerm c)

/-- The class `[A-Z\s\-\']` of the all-caps heading pattern. -/
def isCapsClass (c : Char) : Bool :=
  isUpperChar c || isJsWs c || c == '-' || c == '\''

/-- JavaScript `String.prototype.trim`. -/
def trimJs (l : Str) : Str :=
  ((l.dropWhile isJsWs).reverse.dropWhile isJsWs).reverse

/-- `text.slice(s, e)` for `0 ≤ s ≤ e` (the only way the source slices). -/
def sliceStr (t : Str) (s e : Nat) : Str := (t.drop s).take (e - s)

/-- Does the string contain a non-whitespace character? -/
def hasNonWs (l : Str) : Bool := l.any (fun c => !(isJsWs c))

/-- `text.split(/\s+/)`: split at maximal whitespace runs; leading and
trailing runs produce empty pieces, matching JavaScript.  The second
argument is `none` while inside a separator run, `some piece` (reversed)
while inside a piece. -/
def splitWsGo : Str → Option Str → List Str
  | [], none => [[]]
  | [], some cur => [cur.reverse]
  | c :: rest, none =>
    if isJsWs c then splitWsGo rest none else splitWsGo rest (some [c])
  | c :: rest, some cur =>
    if isJsWs c then cur.reverse :: splitWsGo rest none
    else splitWsGo rest (some (c :: cur))

/-- `text.split(/\s+/).filter(w => w.length > 0).length` (`countWords`). -/
def countWords (text : Str) : Nat :=
  ((splitWsGo text (some [])).filter (fun w => 0 < w.length)).length

/-- `Math.ceil(text.length / charsPerToken)` (`estimateTokens`);
`charsPerToken` is assumed positive, as in every configuration the
source constructs. -/
def estimateTokens (text : Str) (charsPerToken : Nat) : Nat :=
  (text.length + charsPerToken - 1) / charsPerToken

/-- `text.split(/\n\n+/)`: separators are maximal runs of at least two
newlines.  State: `none` inside a separator run; `some (cur, pend)` inside
a piece, with `pend` recording one pending newline that is not yet known
to start a separator. -/
def splitParasGo : Str → Option (Str × Bool) → List Str
  | [], none => [[]]
  | [], some (cur, pend) => [(if pend then '\n' :: cur else cur).reverse]
  | c :: rest, none =>
    if c = '\n' then splitParasGo rest none
    else splitParasGo rest (some ([c], false))
  | c :: rest, some (cur, pend) =>
    if c = '\n' then
      if pend then cur.reverse :: splitParasGo rest none
      else splitParasGo rest (some (cur, true))
    else splitParasGo rest (some ((if pend then c :: '\n' :: cur else c :: cur), false))

/-- `splitAtParagraphs`: split at blank lines, discarding pieces that are
whitespace-only. -/
def splitAtParagraphs (text : Str) : List Str :=
  (splitParasGo text (some ([], false))).filter (fun p => 0 < (trimJs p).length)

/-- Does a whitespace character here begin a sentence separator, i.e. is
the character immediately before it (the head of the reversed current
piece) sentence-ending punctuation? -/
def sentSepStart (cur : Str) (c : Char) : Bool :=
  isJsWs c && (match cur with | p :: _ => isSentEnd p | [] => false)

/-- `text.split(/(?<=[.!?])\s+/)`: separators are maximal whitespace runs
immediately preceded by `.`, `!` or `?`.  State: `none` inside a
separator, `some piece` (reversed) inside a piece, whose head is the
character immediately before the scan point. -/
def splitSentsGo : Str → Option Str → List Str
  | [], none => [[]]
  | [], some cur => [cur.reverse]
  | c :: rest, none =>
    if isJsWs c then splitSentsGo rest none else splitSentsGo rest (some [c])
  | c :: rest, some cur =>
    if sentSepStart cur c then cur.reverse :: splitSentsGo rest none
    else splitSentsGo rest (some (c :: cur))

/-- `splitAtSentences`: split after sentence punctuation, discarding
whitespace-only pieces. -/
def splitAtSentences (text : Str) : List Str :=
  (splitSentsGo text (some [])).filter (fun s => 0 < (trimJs s).length)

/-! Regular-expression engine.

A regex is a sequence of items in which every quantifier ranges over a
character class; alternation is ordered (left branch preferred) and
quantifiers are greedy, backtracking one character at a time, matching
the JavaScript semantics of the source's five patterns.  `^` (multiline)
is handled by the scanner, which only attempts matches at line starts. -/

/-- Capture groups 1-3 as absolute `(start, end)` spans; `none` models an
unset (`undefined`) group. -/
structure Caps where
  g1 : Option (Nat × Nat)
  g2 : Option (Nat × Nat)
  g3 : Option (Nat × Nat)
deriving Repr, DecidableEq

def Caps.empty : Caps := ⟨none, none, none⟩

def Caps.set (cp : Caps) (i : Nat) (s e : Nat) : Caps :=
  match i with
  | 1 => { cp with g1 := some (s, e) }
  | 2 => { cp with g2 := some (s, e) }
  | 3 => { cp with g3 := some (s, e) }
  | _ => cp

inductive RE where
  | eps
  | lit (cls : Char → Bool)
  | str (s : List Char)
  | rep (cls : Char → Bool) (lo : Nat) (hi : Option Nat)
  | seq (a b : RE)
  | alt (a b : RE)
  | grp (i : Nat) (r : RE)
  | eol

/-- Length of the maximal run of class characters at the front. -/
def maxRun (cls : Char → Bool) (rem : Str) : Nat := (rem.takeWhile cls).length

/-- Greedy quantifier: try consuming `n` class characters, then `n - 1`,
down to `lo`. -/
def tryCounts (rem : Str) (pos : Nat) (cp : Caps)
    (k : Str → Nat → Caps → Option (Nat × Caps)) (lo : Nat) :
    Nat → Option (Nat × Caps)
  | 0 => k rem pos cp
  | m + 1 =>
    match k (rem.drop (m + 1)) (pos + (m + 1)) cp with
    | some r => some r
    | none => if lo ≤ m then tryCounts rem pos cp k lo m else none

/-- Backtracking matcher in continuation-passing style.  `rem` is the
unread input, `pos` its absolute position, `k` the continuation for the
rest of the pattern. -/
def runWith : RE → Str → Nat → Caps →
    (Str → Nat → Caps → Option (Nat × Caps)) → Option (Nat × Caps)
  | .eps, rem, pos, cp, k => k rem pos cp
  | .lit cls, rem, pos, cp, k =>
    match rem with
    | [] => none
    | c :: rest => if cls c then k rest (pos + 1) cp else none
  | .str s, rem, pos, cp, k =>
    if s.isPrefixOf rem then k (rem.drop s.length) (pos + s.length) cp else none
  | .rep cls lo hi, rem, pos, cp, k =>
    let m0 := maxRun cls rem
    let m := match hi with | none => m0 | some h => min m0 h
    if m < lo then none else tryCounts rem pos cp k lo m
  | .seq a b, rem, pos, cp, k =>
    runWith a rem pos cp (fun rem1 pos1 cp1 => runWith b rem1 pos1 cp1 k)
  | .alt a b, rem, pos, cp, k =>
    match runWith a rem pos cp k with
    | some r => some r
    | none => runWith b rem pos cp k
  | .grp i r, rem, pos, cp, k =>
    runWith r rem pos cp (fun rem1 pos1 cp1 => k rem1 pos1 (cp1.set i pos pos1))
  | .eol, rem, pos, cp, k =>
    match rem with
    | [] => k rem pos cp
    | c :: _ => if isLineTerm c then k rem pos cp else none

structure RawMatch where
  pos : Nat
  endPos : Nat
  caps : Caps
deriving Repr, DecidableEq

/-- Match the whole pattern at exactly this position. -/
def runRE (re : RE) (rem : Str) (pos : Nat) : Option (Nat × Caps) :=
  runWith re rem pos Caps.empty (fun _ p cp => some (p, cp))

/-- Scan forward for the leftmost position (a line start, since every
pattern is `^`-anchored) where the pattern matches. -/
def findFromAux (re : RE) : Str → Bool → Nat → Option RawMatch
  | [], atLS, pos =>
    if atLS then (runRE re [] pos).map (fun r => ⟨pos, r.1, r.2⟩) else none
  | c :: rest, atLS, pos =>
    match (if atLS then runRE re (c :: rest) pos else none) with
    | some r => some ⟨pos, r.1, r.2⟩
    | none => findFromAux re rest (isLineTerm c) (pos + 1)

def atLineStart (text : Str) (p : Nat) : Bool :=
  p == 0 || (match text[p-1]? with | some c => isLineTerm c | none => false)

/-- The `while ((match = pattern.exec(text)) !== null)` loop of a global
regex: after each match resume at its end (the source's patterns never
match the empty string, so `lastIndex` always advances). -/
def execGo (re : RE) (text : Str) : Nat → Nat → List RawMatch
  | _, 0 => []
  | start, fuel + 1 =>
    match findFromAux re (text.drop start) (atLineStart text start) start with
    | none => []
    | some m => m :: execGo re text (max m.endPos (m.pos + 1)) fuel

def execAll (re : RE) (text : Str) : List RawMatch :=
  execGo re text 0 (text.length + 2)

/-- Right-nested sequencing of a pattern's items. -/
def seqList (rs : List RE) : RE := rs.foldr RE.seq RE.eps

/-- `/^(CHAPTER|Chapter)\s+([IVXLCDM]+|\d+|[A-Za-z]+)[\.\:\s]*(.*)$/gm` -/
def pat1 : RE :=
  seqList [RE.grp 1 (RE.alt (RE.str "CHAPTER".toList) (RE.str "Chapter".toList)),
           RE.rep isJsWs 1 none,
           RE.grp 2 (RE.alt (RE.rep isRomanChar 1 none)
             (RE.alt (RE.rep isDigitChar 1 none) (RE.rep isAsciiLetterChar 1 none))),
           RE.rep isHeadPunct 0 none,
           RE.grp 3 (RE.rep isDotChar 0 none),
           RE.eol]

/-- `/^(BOOK|Book)\s+([IVXLCDM]+|\d+)[\.\:\s]*(.*)$/gm` -/
def pat2 : RE :=
  seqList [RE.grp 1 (RE.alt (RE.str "BOOK".toList) (RE.str "Book".toList)),
           RE.rep isJsWs 1 none,
           RE.grp 2 (RE.alt (RE.rep isRomanChar 1 none) (RE.rep isDigitChar 1 none)),
           RE.rep isHeadPunct 0 none,
           RE.grp 3 (RE.rep isDotChar 0 none),
           RE.eol]

/-- `/^(PART|Part)\s+([IVXLCDM]+|\d+)[\.\:\s]*(.*)$/gm` -/
def pat3 : RE :=
  seqList [RE.grp 1 (RE.alt (RE.str "PART".toList) (RE.str "Part".toList)),
           RE.rep isJsWs 1 none,
           RE.grp 2 (RE.alt (RE.rep isRomanChar 1 none) (RE.rep isDigitChar 1 none)),
           RE.rep isHeadPunct 0 none,
           RE.grp 3 (RE.rep isDotChar 0 none),
           RE.eol]

/-- `/^([IVXLCDM]+)\.\s*(.*)$/gm` — note the title remainder is group 2
here, so for this pattern the source parses the remainder, not the
numeral, as the chapter number. -/
def pat4 : RE :=
  seqList [RE.grp 1 (RE.rep isRomanChar 1 none),
           RE.lit (fun c => c == '.'),
           RE.rep isJsWs 0 none,
           RE.grp 2 (RE.rep isDotChar 0 none),
           RE.eol]

/-- `/^([A-Z][A-Z\s\-\']{5,50})$/gm` -/
def pat5 : RE :=
  seqList [RE.grp 1 (RE.seq (RE.lit isUpperChar) (RE.rep isCapsClass 5 (some 50))),
           RE.eol]

def chapterPatterns : List RE := [pat1, pat2, pat3, pat4, pat5]

/-- `romanToInt`'s per-character value map. -/
def romanValue (c : Char) : Option Int :=
  if c == 'I' then some 1 else if c == 'V' then some 5
  else if c == 'X' then some 10 else if c == 'L' then some 50
  else if c == 'C' then some 100 else if c == 'D' then some 500
  else if c == 'M' then some 1000 else none

/-- The right-to-left accumulation loop of `romanToInt`, on the reversed
uppercased string, carrying `result` and `prevValue`. -/
def romanToIntAux : List Char → Int → Int → Option Int
  | [], result, _ => some result
  | c :: rest, result, prev =>
    match romanValue c with
    | none => none
    | some v => romanToIntAux rest (if v < prev then result - v else result + v) v

/-- `romanToInt`: null on any unmapped character or a non-positive total. -/
def romanToInt (roman : Str) : Option Int :=
  match romanToIntAux (roman.map Char.toUpper).reverse 0 0 with
  | none => none
  | some r => if 0 < r then some r else none

/-- JavaScript `parseInt(s, 10)`: skip leading whitespace, optional sign,
then a maximal digit prefix; `NaN` (here `none`) if there are no digits. -/
def parseIntJS (s : Str) : Option Int :=
  let t := s.dropWhile isJsWs
  let sign : Int := match t with | '-' :: _ => -1 | _ => 1
  let t2 : Str := match t with | '-' :: r => r | '+' :: r => r | _ => t
  let ds := t2.takeWhile isDigitChar
  if ds.isEmpty then none
  else some (sign * ((ds.foldl (fun acc c => acc * 10 + (c.toNat - 48)) 0 : Nat) : Int))

/-- Lines 76-85 of the source: try `parseInt`, fall back to `romanToInt`. -/
def parseChapterNum (tok : Str) : Option Int :=
  match parseIntJS tok with
  | some n => some n
  | none => romanToInt tok

/-- A pooled chapter-heading match: `{ position, title, number }`. -/
structure CMatch where
  position : Nat
  title : Str
  number : Option Int
deriving Repr, DecidableEq

def capStr (t : Str) (c : Option (Nat × Nat)) : Option Str :=
  c.map (fun p => sliceStr t p.1 p.2)

/-- Lines 70-94 of the source: derive `{position, title, number}` from one
regex match.  `match[2]` is only parsed when defined and non-empty
(JavaScript truthiness); the title template fires only when `match[3]`
is defined with a non-empty trim. -/
def toCMatch (t : Str) (m : RawMatch) : CMatch :=
  let fullMatch := trimJs (sliceStr t m.pos m.endPos)
  let g1 := capStr t m.caps.g1
  let g2 := capStr t m.caps.g2
  let g3 := capStr t m.caps.g3
  let num : Option Int :=
    match g2 with
    | some tok => if tok.isEmpty then none else parseChapterNum tok
    | none => none
  let title : Str :=
    match g3 with
    | some r3 =>
      if (trimJs r3).isEmpty then fullMatch
      else (g1.getD []) ++ (' ' :: (g2.getD [])) ++ (':' :: ' ' :: trimJs r3)
    | none => fullMatch
  ⟨m.pos, title, num⟩

/-- The match pool of all five patterns, in pattern order, then sorted by
position ascending.  `insertionSort` with `≤` is stable, like the
JavaScript array sort. -/
def collectMatches (t : Str) : List CMatch :=
  let pool := (chapterPatterns.map (fun p => (execAll p t).map (toCMatch t))).flatten
  pool.insertionSort (fun a b => a.position ≤ b.position)

/-- Lines 100-104 of the source: keep an element when it is the first or
lies more than 100 characters after the previous element of the sorted
array (kept or not — the filter reads `chapterMatches[index - 1]`, the
original array, not the filtered one). -/
def dedupeRest : CMatch → List CMatch → List CMatch
  | _, [] => []
  | prev, x :: xs =>
    if prev.position + 100 < x.position then x :: dedupeRest x xs
    else dedupeRest x xs

def dedupeMatches : List CMatch → List CMatch
  | [] => []
  | x :: xs => x :: dedupeRest x xs

structure Chapter where
  title : Option Str
  number : Option Int
  startPosition : Nat
  endPosition : Nat
  text : Str
deriving Repr, DecidableEq

/-- Lines 107-121: chapter i spans from match i to match i+1 (or the end
of the text for the last match). -/
def buildChapters (t : Str) : List CMatch → List Chapter
  | [] => []
  | [m] => [⟨some m.title, m.number, m.position, t.length, sliceStr t m.position t.length⟩]
  | m :: m2 :: rest =>
    ⟨some m.title, m.number, m.position, m2.position, sliceStr t m.position m2.position⟩
      :: buildChapters t (m2 :: rest)

/-- `detectChapters`: pool, sort, dedupe, build; fall back to a single
untitled chapter over the whole text when nothing matched. -/
def detectChapters (text : Str) : List Chapter :=
  let chapters := buildChapters text (dedupeMatches (collectMatches text))
  if chapters.isEmpty then [⟨none, none, 0, text.length, text⟩]
  else chapters

structure ChunkOptions where
  targetTokens : Nat
  maxTokens : Nat
  minTokens : Nat
  charsPerToken : Nat
deriving Repr, DecidableEq

def DEFAULT_OPTIONS : ChunkOptions := ⟨3000, 4000, 500, 4⟩

/-- A chunk fragment as produced by `chunkChapter`. -/
structure Frag where
  text : Str
  startOffset : Nat
  endOffset : Nat
deriving Repr, DecidableEq

/-- The mutable state of `chunkChapter`'s accumulation loops:
`currentChunk`, `chunkStartOffset`, `currentOffset` and the `chunks`
array. -/
structure LoopState where
  currentChunk : Str
  chunkStartOffset : Nat
  currentOffset : Nat
  chunks : List Frag
deriving Repr, DecidableEq

/-- Lines 254-270 of the source: the sentence-level fallback loop over the
sentences of an oversized paragraph. -/
def sentLoop (targetChars minChars : Nat) : List Str → LoopState → LoopState
  | [], st => st
  | sentence :: rest, st =>
    let sws := (if st.currentChunk.isEmpty then [] else [' ']) ++ sentence
    let st1 :=
      if targetChars < st.currentChunk.length + sws.length ∧
          minChars ≤ st.currentChunk.length then
        { currentChunk := sentence,
          chunkStartOffset := st.currentOffset,
          currentOffset := st.currentOffset,
          chunks := st.chunks ++ [⟨trimJs st.currentChunk, st.chunkStartOffset, st.currentOffset⟩] }
      else { st with currentChunk := st.currentChunk ++ sws }
    sentLoop targetChars minChars rest
      { st1 with currentOffset := st1.currentOffset + sentence.length + 1 }

/-- Lines 227-288 of the source: the paragraph accumulation loop with its
four branches (flush-at-max, oversized-paragraph sentence fallback,
flush-at-target, append). -/
def paraLoop (targetChars maxChars minChars : Nat) : List Str → LoopState → LoopState
  | [], st => st
  | paragraph :: rest, st =>
    let pwb := (if st.currentChunk.isEmpty then [] else ['\n', '\n']) ++ paragraph
    let st1 :=
      if maxChars < st.currentChunk.length + pwb.length ∧
          minChars ≤ st.currentChunk.length then
        { currentChunk := paragraph,
          chunkStartOffset := st.currentOffset,
          currentOffset := st.currentOffset,
          chunks := st.chunks ++ [⟨trimJs st.currentChunk, st.chunkStartOffset, st.currentOffset⟩] }
      else if maxChars < paragraph.length then
        let st2 :=
          if minChars ≤ st.currentChunk.length then
            { currentChunk := [],
              chunkStartOffset := st.currentOffset,
              currentOffset := st.currentOffset,
              chunks := st.chunks ++ [⟨trimJs st.currentChunk, st.chunkStartOffset, st.currentOffset⟩] }
          else st
        sentLoop targetChars minChars (splitAtSentences paragraph) st2
      else if targetChars ≤ st.currentChunk.length then
        { currentChunk := paragraph,
          chunkStartOffset := st.currentOffset,
          currentOffset := st.currentOffset,
          chunks := st.chunks ++ [⟨trimJs st.currentChunk, st.chunkStartOffset, st.currentOffset⟩] }
      else { st with currentChunk := st.currentChunk ++ pwb }
    paraLoop targetChars maxChars minChars rest
      { st1 with currentOffset := st1.currentOffset + paragraph.length + 2 }

/-- `chunkChapter`: a chapter fitting within `maxChars` is emitted
verbatim as one fragment; otherwise paragraphs are accumulated and the
final non-empty buffer is flushed with the chapter's end offset. -/
def chunkChapter (chapter : Chapter) (options : ChunkOptions) (globalOffset : Nat) :
    List Frag :=
  let targetChars := options.targetTokens * options.charsPerToken
  let maxChars := options.maxTokens * options.charsPerToken
  let minChars := options.minTokens * options.charsPerToken
  if chapter.text.length ≤ maxChars then
    [⟨chapter.text, globalOffset + chapter.startPosition, globalOffset + chapter.endPosition⟩]
  else
    let st := paraLoop targetChars maxChars minChars (splitAtParagraphs chapter.text)
      ⟨[], globalOffset + chapter.startPosition, globalOffset + chapter.startPosition, []⟩
    if 0 < st.currentChunk.length then
      st.chunks ++ [⟨trimJs st.currentChunk, st.chunkStartOffset, globalOffset + chapter.endPosition⟩]
    else st.chunks

structure BookChunk where
  chunkNumber : Nat
  totalChunks : Nat
  text : Str
  tokenCount : Nat
  wordCount : Nat
  chapterTitle : Option Str
  chapterNumber : Option Int
  isChapterStart : Bool
  startPosition : Nat
  endPosition : Nat
deriving Repr, DecidableEq

/-- Lines 316-337 of the source: chunk every chapter, assigning
`chunkNumber` from a running counter; `totalChunks` is filled in later. -/
def chunkAll (opts : ChunkOptions) : List Chapter → Nat → List BookChunk
  | [], _ => []
  | chapter :: rest, k =>
    let frs := chunkChapter chapter opts 0
    (frs.enum.map (fun p =>
      { chunkNumber := k + p.1
        totalChunks := 0
        text := p.2.text
        tokenCount := estimateTokens p.2.text opts.charsPerToken
        wordCount := countWords p.2.text
        chapterTitle := chapter.title
        chapterNumber := chapter.number
        isChapterStart := p.1 == 0
        startPosition := p.2.startOffset
        endPosition := p.2.endOffset }))
      ++ chunkAll opts rest (k + frs.length)

/-- `chunkBook`: detect chapters, chunk them, then backfill `totalChunks`
on every chunk. -/
def chunkBook (text : Str) (options : ChunkOptions) : List BookChunk :=
  let allChunks := chunkAll options (detectChapters text) 1
  allChunks.map (fun c => { c with totalChunks := allChunks.length })

/-! Concrete inputs used by the claim theorems, and definitions that state
claims from the specification for comparison with the source behaviour. -/

/-- The specification's two-chapter scenario text. -/
def scenarioText : Str :=
  "CHAPTER I\n\nFirst paragraph.\n\nCHAPTER II\n\nSecond paragraph.".toList

/-- A text whose only heading starts at position 2, not 0. -/
def preambleText : Str := "z\nII. a".toList

/-- Three `CHAPTER` headings at positions 0, 60 and 130: consecutive gaps
are at most 100 characters but the first and third are more than 100
apart. -/
def tripleHeadingText : Str :=
  ("CHAPTER 1\n" ++ String.mk (List.replicate 49 'z') ++ "\n" ++
   "CHAPTER 2\n" ++ String.mk (List.replicate 59 'z') ++ "\n" ++
   "CHAPTER 3\nzz").toList

/-- A whitespace-only text longer than the default `maxChars = 16000`. -/
def allWsText : Str := List.replicate 16001 ' '

/-- The deduplication rule as the specification states it: keep a match
iff it lies more than 100 characters after the last **kept** match. -/
def lastKeptGo : CMatch → List CMatch → List CMatch
  | _, [] => []
  | kept, x :: xs =>
    if kept.position + 100 < x.position then x :: lastKeptGo x xs
    else lastKeptGo kept xs

def lastKeptRule : List CMatch → List CMatch
  | [] => []
  | x :: xs => x :: lastKeptGo x xs

/-- The deduplication rule the source implements, stated positionally:
keep element `i` iff `i = 0` or element `i` lies more than 100 characters
after element `i - 1` of the same (sorted) array, kept or not. -/
def adjacentKeptRule (l : List CMatch) : List CMatch :=
  l.enum.filterMap (fun p =>
    if p.1 = 0 then some p.2
    else
      match l[p.1 - 1]? with
      | some prev => if prev.position + 100 < p.2.position then some p.2 else none
      | none => none)

/-- Claim C1 as stated: the detected chapters are ordered, contiguous,
start at 0 and end at the text's length. -/
def chaptersPartitionFromZero (t : Str) : Prop :=
  detectChapters t ≠ [] ∧
  List.Chain' (fun a b => a.endPosition = b.startPosition ∧ a.startPosition < b.startPosition)
    (detectChapters t) ∧
  (detectChapters t).head?.map (fun c => c.startPosition) = some 0 ∧
  (detectChapters t).getLast?.map (fun c => c.endPosition) = some t.length

/-- Claim C2 as stated: two chapters numbered 1 and 2, two chunks
numbered 1 and 2 with `totalChunks = 2` and both chapter starts. -/
def scenarioClaim : Prop :=
  (detectChapters scenarioText).map (fun ch => ch.number) = [some 1, some 2] ∧
  (chunkBook scenarioText DEFAULT_OPTIONS).map
    (fun c => (c.chunkNumber, c.totalChunks, c.isChapterStart)) =
    [(1, 2, true), (2, 2, true)]

/-- Claim C7 as stated, for one chapter: if the chapter's estimated size
reaches `maxTokens` then at most one emitted chunk exceeds `maxTokens`
estimated tokens, and every non-final chunk reaches `minTokens`. -/
def sizeBoundClaim (chapter : Chapter) (opts : ChunkOptions) (off : Nat) : Prop :=
  opts.maxTokens ≤ estimateTokens chapter.text opts.charsPerToken →
    ((chunkChapter chapter opts off).filter
      (fun f => opts.maxTokens < estimateTokens f.text opts.charsPerToken)).length ≤ 1 ∧
    ∀ f ∈ (chunkChapter chapter opts off).dropLast,
      opts.minTokens ≤ estimateTokens f.text opts.charsPerToken

/-- A small size policy making the size-bound violations cheap to
exhibit: target 30, max 40, min 10, one character per token. -/
def widePolicy : ChunkOptions := ⟨30, 40, 10, 1⟩

/-- Paragraphs engineered so that a short paragraph is appended to a
below-`minChars` buffer, overflowing `maxChars` twice, and a
space-padded paragraph is flushed as a 1-character chunk. -/
def wideParas : List Str :=
  [List.replicate 12 ' ' ++ ['a'], List.replicate 38 'b', List.replicate 38 'c',
   List.replicate 5 'd', List.replicate 38 'e', List.replicate 38 'f',
   List.replicate 5 'g', List.replicate 38 'h', List.replicate 38 'i']

def wideText : Str := (wideParas.map (fun p => p ++ ['\n', '\n'])).flatten.dropLast.dropLast

def wideChapter : Chapter := ⟨none, none, 0, wideText.length, wideText⟩

/-- A sufficient condition for `runWith re` to consume a first character
satisfying `P` whenever it succeeds: the first item of the pattern always
consumes one character of a class contained in `P`. -/
def headBound : RE → (Char → Bool) → Prop
  | .eps, _ => False
  | .eol, _ => False
  | .lit cls, P => ∀ c, cls c = true → P c = true
  | .str s, P => ∃ c tl, s = c :: tl ∧ P c = true
  | .rep cls lo _, P => 1 ≤ lo ∧ ∀ c, cls c = true → P c = true
  | .seq a _, P => headBound a P
  | .alt a b, P => headBound a P ∧ headBound b P
  | .grp _ r, P => headBound r P

/-- The comparison used to sort the match pool is total. -/
instance : IsTotal CMatch (fun a b => a.position ≤ b.position) :=
  ⟨fun a b => Nat.le_total a.position b.position⟩

/-- The comparison used to sort the match pool is transitive. -/
instance : IsTrans CMatch (fun a b => a.position ≤ b.position) :=
  ⟨fun _ _ _ => Nat.le_trans⟩

/-! Basic lemmas about character classes, `trimJs` and `hasNonWs`. -/

theorem nonWs_of_roman {c : Char} (h : isRomanChar c = true) : isJsWs c = false := by
  simp only [isRomanChar, Bool.or_eq_true, beq_iff_eq] at h
  rcases h with ((((((h | h) | h) | h) | h) | h) | h) <;> subst h <;> decide

theorem nonWs_of_digit {c : Char} (h : isDigitChar c = true) : isJsWs c = false := by
  simp only [isDigitChar, Bool.and_eq_true, decide_eq_true_eq] at h
  simp only [isJsWs, Bool.or_eq_false_iff, Bool.and_eq_false_iff,
    decide_eq_false_iff_not]
  omega

theorem nonWs_of_upper {c : Char} (h : isUpperChar c = true) : isJsWs c = false := by
  simp only [isUpperChar, Bool.and_eq_true, decide_eq_true_eq] at h
  simp only [isJsWs, Bool.or_eq_false_iff, Bool.and_eq_false_iff,
    decide_eq_false_iff_not]
  omega

theorem nonWs_of_asciiLetter {c : Char} (h : isAsciiLetterChar c = true) :
    isJsWs c = false := by
  simp only [isAsciiLetterChar, Bool.or_eq_true, Bool.and_eq_true,
    decide_eq_true_eq] at h
  simp only [isJsWs, Bool.or_eq_false_iff, Bool.and_eq_false_iff,
    decide_eq_false_iff_not]
  rcases h with h | h
  · simp only [isUpperChar, Bool.and_eq_true, decide_eq_true_eq] at h
    omega
  · omega

theorem hasNonWs_dropWhile (l : Str) :
    hasNonWs (l.dropWhile isJsWs) = hasNonWs l := by
  induction l with
  | nil => rfl
  | cons c rest ih =>
    by_cases hc : isJsWs c
    · simp [hasNonWs, List.dropWhile_cons, hc] at ih ⊢
      exact ih
    · simp [List.dropWhile_cons, hc]

theorem hasNonWs_reverse (l : Str) : hasNonWs l.reverse = hasNonWs l := by
  simp [hasNonWs]

theorem hasNonWs_trimJs (l : Str) : hasNonWs (trimJs l) = hasNonWs l := by
  unfold trimJs
  rw [hasNonWs_reverse, hasNonWs_dropWhile, hasNonWs_reverse, hasNonWs_dropWhile]

theorem hasNonWs_eq_false_iff {l : Str} :
    hasNonWs l = false ↔ ∀ c ∈ l, isJsWs c = true := by
  simp [hasNonWs, List.any_eq_false]

theorem trimJs_eq_nil_iff {l : Str} : trimJs l = [] ↔ hasNonWs l = false := by
  constructor
  · intro h
    have := hasNonWs_trimJs l
    rw [h] at this
    simpa [hasNonWs] using this.symm
  · intro h
    rw [hasNonWs_eq_false_iff] at h
    unfold trimJs
    have h1 : l.dropWhile isJsWs = [] := List.dropWhile_eq_nil_iff.2 h
    simp [h1]

theorem hasNonWs_of_trim_ne_nil {l : Str} (h : trimJs l ≠ []) : hasNonWs l = true := by
  rcases hb : hasNonWs l with _ | _
  · exact absurd (trimJs_eq_nil_iff.2 hb) h
  · rfl

theorem ne_nil_of_trim_ne_nil {l : Str} (h : trimJs l ≠ []) : l ≠ [] := by
  intro he
  subst he
  exact h rfl

theorem trimJs_length_le (l : Str) : (trimJs l).length ≤ l.length := by
  unfold trimJs
  calc ((l.dropWhile isJsWs).reverse.dropWhile isJsWs).reverse.length
      = ((l.dropWhile isJsWs).reverse.dropWhile isJsWs).length := by
        rw [List.length_reverse]
    _ ≤ (l.dropWhile isJsWs).reverse.length :=
        (List.dropWhile_sublist isJsWs).length_le
    _ = (l.dropWhile isJsWs).length := by rw [List.length_reverse]
    _ ≤ l.length := (List.dropWhile_sublist isJsWs).length_le

theorem head_dropWhile_not (p : Char → Bool) :
    ∀ (l : Str) {c : Char}, (l.dropWhile p).head? = some c → p c = false
  | [], c => by intro h; simp at h
  | x :: rest, c => by
    intro h
    by_cases hx : p x
    · rw [List.dropWhile_cons_of_pos hx] at h
      exact head_dropWhile_not p rest h
    · rw [List.dropWhile_cons_of_neg hx] at h
      simp only [List.head?_cons, Option.some.injEq] at h
      subst h
      exact Bool.eq_false_iff.2 hx

theorem dropWhile_eq_self_of_head (p : Char → Bool) (l : Str)
    (h : ∀ c, l.head? = some c → p c = false) : l.dropWhile p = l := by
  cases l with
  | nil => rfl
  | cons x rest =>
    have := h x rfl
    rw [List.dropWhile_cons_of_neg (by simp [this])]

theorem getLast_trimJs_not (l : Str) {c : Char}
    (h : (trimJs l).getLast? = some c) : isJsWs c = false := by
  unfold trimJs at h
  rw [List.getLast?_reverse] at h
  exact head_dropWhile_not _ _ h

theorem head_trimJs_not (l : Str) {c : Char}
    (h : (trimJs l).head? = some c) : isJsWs c = false := by
  unfold trimJs at h
  rw [List.head?_reverse] at h
  set A := l.dropWhile isJsWs with hA
  set B := A.reverse.dropWhile isJsWs with hB
  have hBne : B ≠ [] := by
    intro hnil
    rw [hnil] at h
    simp at h
  have hsplit : A.reverse.takeWhile isJsWs ++ B = A.reverse := by
    rw [hB]; exact List.takeWhile_append_dropWhile isJsWs A.reverse
  have h2 : B.getLast? = A.reverse.getLast? := by
    rcases hg : B.getLast? with _ | b
    · exact absurd (List.getLast?_eq_none_iff.1 hg) hBne
    · rw [← hsplit, List.getLast?_append, hg]
      rfl
  rw [h2, List.getLast?_reverse] at h
  exact head_dropWhile_not _ _ h

theorem trimJs_idem (l : Str) : trimJs (trimJs l) = trimJs l := by
  have h1 : (trimJs l).dropWhile isJsWs = trimJs l :=
    dropWhile_eq_self_of_head _ _ (fun c hc => head_trimJs_not l hc)
  have h2 : (trimJs l).reverse.dropWhile isJsWs = (trimJs l).reverse := by
    apply dropWhile_eq_self_of_head
    intro c hc
    rw [List.head?_reverse] at hc
    exact getLast_trimJs_not l hc
  show (((trimJs l).dropWhile isJsWs).reverse.dropWhile isJsWs).reverse = trimJs l
  rw [h1, h2, List.reverse_reverse]

/-! Lemmas about the three splitters: a non-whitespace character of the
input always survives into some piece, and every character of a piece
comes from the input (or is a retained single newline). -/

theorem splitWsGo_mem {c : Char} (hc : isJsWs c = false) :
    ∀ (l : Str) (st : Option Str),
      (c ∈ l ∨ ∃ cur, st = some cur ∧ c ∈ cur) →
      ∃ p ∈ splitWsGo l st, c ∈ p := by
  intro l
  induction l with
  | nil =>
    rintro st (h | ⟨cur, rfl, hcur⟩)
    · exact absurd h (List.not_mem_nil c)
    · exact ⟨cur.reverse, by simp [splitWsGo], by simpa using hcur⟩
  | cons d rest ih =>
    rintro st (h | ⟨cur, rfl, hcur⟩)
    · have hdc : isJsWs d = true → c ≠ d := by
        intro hd he; rw [he] at hc; rw [hc] at hd; exact Bool.false_ne_true hd
      cases st with
      | none =>
        by_cases hd : isJsWs d
        · have : c ∈ rest := by
            rcases List.mem_cons.1 h with he | hr
            · exact absurd he (hdc hd)
            · exact hr
          simpa [splitWsGo, hd] using ih none (Or.inl this)
        · rcases List.mem_cons.1 h with he | hr
          · subst he
            simpa [splitWsGo, hd] using ih (some [c]) (Or.inr ⟨[c], rfl, by simp⟩)
          · simpa [splitWsGo, hd] using ih (some [d]) (Or.inl hr)
      | some cur =>
        by_cases hd : isJsWs d
        · have hr : c ∈ rest := by
            rcases List.mem_cons.1 h with he | hr
            · exact absurd he (hdc hd)
            · exact hr
          rcases ih none (Or.inl hr) with ⟨p, hp, hcp⟩
          exact ⟨p, by simp [splitWsGo, hd, hp], hcp⟩
        · rcases List.mem_cons.1 h with he | hr
          · subst he
            simpa [splitWsGo, hd] using ih (some (c :: cur)) (Or.inr ⟨_, rfl, by simp⟩)
          · simpa [splitWsGo, hd] using
              ih (some (d :: cur)) (Or.inl hr)
    · cases hd : isJsWs d with
      | true =>
        refine ⟨cur.reverse, ?_, by simpa using hcur⟩
        simp [splitWsGo, hd]
      | false =>
        simpa [splitWsGo, hd] using
          ih (some (d :: cur)) (Or.inr ⟨_, rfl, List.mem_cons_of_mem d hcur⟩)

theorem countWords_pos {l : Str} (h : hasNonWs l = true) : 1 ≤ countWords l := by
  rcases List.any_eq_true.1 h with ⟨c, hcl, hcw⟩
  have hc : isJsWs c = false := by
    rcases hb : isJsWs c with _ | _
    · rfl
    · rw [hb] at hcw; exact absurd hcw (by decide)
  rcases splitWsGo_mem hc l (some []) (Or.inl hcl) with ⟨p, hp, hcp⟩
  have hplen : 0 < p.length := List.length_pos.2 (List.ne_nil_of_mem hcp)
  have : p ∈ (splitWsGo l (some [])).filter (fun w => 0 < w.length) :=
    List.mem_filter.2 ⟨hp, by simpa using hplen⟩
  have hne : (splitWsGo l (some [])).filter (fun w => 0 < w.length) ≠ [] :=
    List.ne_nil_of_mem this
  unfold countWords
  exact List.length_pos.2 hne

theorem splitParasGo_mem {c : Char} (hc : c ≠ '\n') :
    ∀ (l : Str) (st : Option (Str × Bool)),
      (c ∈ l ∨ ∃ cur pend, st = some (cur, pend) ∧ c ∈ cur) →
      ∃ p ∈ splitParasGo l st, c ∈ p := by
  intro l
  induction l with
  | nil =>
    rintro st (h | ⟨cur, pend, rfl, hcur⟩)
    · exact absurd h (List.not_mem_nil c)
    · refine ⟨(if pend then '\n' :: cur else cur).reverse, by simp [splitParasGo], ?_⟩
      cases pend <;> simp [hcur]
  | cons d rest ih =>
    rintro st (h | ⟨cur, pend, rfl, hcur⟩)
    · cases st with
      | none =>
        by_cases hd : d = '\n'
        · subst hd
          have hr : c ∈ rest := by
            rcases List.mem_cons.1 h with he | hr
            · exact absurd he hc
            · exact hr
          simpa [splitParasGo] using ih none (Or.inl hr)
        · rcases List.mem_cons.1 h with he | hr
          · subst he
            simpa [splitParasGo, hd] using
              ih (some ([c], false)) (Or.inr ⟨[c], false, rfl, by simp⟩)
          · simpa [splitParasGo, hd] using
              ih (some ([d], false)) (Or.inl hr)
      | some st0 =>
        rcases st0 with ⟨cur, pend⟩
        by_cases hd : d = '\n'
        · subst hd
          have hr : c ∈ rest := by
            rcases List.mem_cons.1 h with he | hr
            · exact absurd he hc
            · exact hr
          cases pend with
          | true =>
            rcases ih none (Or.inl hr) with ⟨p, hp, hcp⟩
            exact ⟨p, by simp [splitParasGo, hp], hcp⟩
          | false =>
            simpa [splitParasGo] using
              ih (some (cur, true)) (Or.inl hr)
        · rcases List.mem_cons.1 h with he | hr
          · subst he
            refine (?_ :
              ∃ p ∈ splitParasGo rest
                (some ((if pend then c :: '\n' :: cur else c :: cur), false)), c ∈ p) |>.imp
              (fun p hp => by
                simpa [splitParasGo, hd] using hp)
            apply ih
            exact Or.inr ⟨_, false, rfl, by cases pend <;> simp⟩
          · refine (?_ :
              ∃ p ∈ splitParasGo rest
                (some ((if pend then d :: '\n' :: cur else d :: cur), false)), c ∈ p) |>.imp
              (fun p hp => by
                simpa [splitParasGo, hd] using hp)
            exact ih _ (Or.inl hr)
    · by_cases hd : d = '\n'
      · subst hd
        cases pend with
        | true =>
          exact ⟨cur.reverse, by simp [splitParasGo], by simpa using hcur⟩
        | false =>
          simpa [splitParasGo] using
            ih (some (cur, true)) (Or.inr ⟨cur, true, rfl, hcur⟩)
      · refine (?_ :
          ∃ p ∈ splitParasGo rest
            (some ((if pend then d :: '\n' :: cur else d :: cur), false)), c ∈ p) |>.imp
          (fun p hp => by
            simpa [splitParasGo, hd] using hp)
        apply ih
        refine Or.inr ⟨_, false, rfl, ?_⟩
        cases pend <;> simp [hcur]


theorem splitSentsGo_mem {c : Char} (hc : isJsWs c = false) :
    ∀ (l : Str) (st : Option Str),
      (c ∈ l ∨ ∃ cur, st = some cur ∧ c ∈ cur) →
      ∃ p ∈ splitSentsGo l st, c ∈ p := by
  intro l
  induction l with
  | nil =>
    rintro st (h | ⟨cur, rfl, hcur⟩)
    · exact absurd h (List.not_mem_nil c)
    · exact ⟨cur.reverse, by simp [splitSentsGo], by simpa using hcur⟩
  | cons d rest ih =>
    have hdc : isJsWs d = true → c ≠ d := by
      intro hd he; rw [he] at hc; rw [hc] at hd; exact Bool.false_ne_true hd
    rintro st (h | ⟨cur, rfl, hcur⟩)
    · cases st with
      | none =>
        by_cases hd : isJsWs d
        · have hr : c ∈ rest := by
            rcases List.mem_cons.1 h with he | hr
            · exact absurd he (hdc hd)
            · exact hr
          simpa [splitSentsGo, hd] using ih none (Or.inl hr)
        · rcases List.mem_cons.1 h with he | hr
          · subst he
            simpa [splitSentsGo, hd] using
              ih (some [c]) (Or.inr ⟨[c], rfl, by simp⟩)
          · simpa [splitSentsGo, hd] using ih (some [d]) (Or.inl hr)
      | some cur =>
        by_cases hcond : sentSepStart cur d = true
        · have hd : isJsWs d = true :=
            ((Bool.and_eq_true _ _) ▸ hcond).1
          have hr : c ∈ rest := by
            rcases List.mem_cons.1 h with he | hr
            · exact absurd he (hdc hd)
            · exact hr
          rcases ih none (Or.inl hr) with ⟨p, hp, hcp⟩
          exact ⟨p, by simp [splitSentsGo, hcond, hp], hcp⟩
        · rw [Bool.not_eq_true] at hcond
          rcases List.mem_cons.1 h with he | hr
          · subst he
            simpa [splitSentsGo, hcond] using
              ih (some (c :: cur)) (Or.inr ⟨_, rfl, by simp⟩)
          · simpa [splitSentsGo, hcond] using
              ih (some (d :: cur)) (Or.inl hr)
    · by_cases hcond : sentSepStart cur d = true
      · refine ⟨cur.reverse, ?_, by simpa using hcur⟩
        simp [splitSentsGo, hcond]
      · rw [Bool.not_eq_true] at hcond
        simpa [splitSentsGo, hcond] using
          ih (some (d :: cur)) (Or.inr ⟨_, rfl, List.mem_cons_of_mem d hcur⟩)

theorem splitParasGo_chars :
    ∀ (l : Str) (st : Option (Str × Bool)) (p : Str), p ∈ splitParasGo l st →
      ∀ c ∈ p, c ∈ l ∨ c = '\n' ∨ ∃ cur pend, st = some (cur, pend) ∧ c ∈ cur := by
  intro l
  induction l with
  | nil =>
    intro st p hp c hcp
    cases st with
    | none =>
      simp only [splitParasGo, List.mem_singleton] at hp
      subst hp
      exact absurd hcp (List.not_mem_nil c)
    | some st0 =>
      rcases st0 with ⟨cur, pend⟩
      simp only [splitParasGo, List.mem_singleton] at hp
      subst hp
      rw [List.mem_reverse] at hcp
      cases pend with
      | true =>
        rcases List.mem_cons.1 hcp with he | hcur
        · exact Or.inr (Or.inl he)
        · exact Or.inr (Or.inr ⟨cur, true, rfl, hcur⟩)
      | false => exact Or.inr (Or.inr ⟨cur, false, rfl, hcp⟩)
  | cons d rest ih =>
    intro st p hp c hcp
    cases st with
    | none =>
      by_cases hd : d = '\n'
      · subst hd
        simp only [splitParasGo, if_pos rfl] at hp
        rcases ih none p hp c hcp with hl | hnl | ⟨cur, pend, hst, _⟩
        · exact Or.inl (List.mem_cons_of_mem _ hl)
        · exact Or.inr (Or.inl hnl)
        · exact absurd hst (by simp)
      · simp only [splitParasGo, if_neg hd] at hp
        rcases ih _ p hp c hcp with hl | hnl | ⟨cur, pend, hst, hcur⟩
        · exact Or.inl (List.mem_cons_of_mem _ hl)
        · exact Or.inr (Or.inl hnl)
        · simp only [Option.some.injEq, Prod.mk.injEq] at hst
          rw [← hst.1] at hcur
          simp only [List.mem_singleton] at hcur
          subst hcur
          exact Or.inl (List.mem_cons_self _ _)
    | some st0 =>
      rcases st0 with ⟨cur, pend⟩
      by_cases hd : d = '\n'
      · subst hd
        cases pend with
        | true =>
          simp only [splitParasGo, if_pos rfl] at hp
          rcases List.mem_cons.1 hp with hpe | hprest
          · subst hpe
            rw [List.mem_reverse] at hcp
            exact Or.inr (Or.inr ⟨cur, true, rfl, hcp⟩)
          · rcases ih none p hprest c hcp with hl | hnl | ⟨cur2, pend2, hst, _⟩
            · exact Or.inl (List.mem_cons_of_mem _ hl)
            · exact Or.inr (Or.inl hnl)
            · exact absurd hst (by simp)
        | false =>
          simp only [splitParasGo, if_pos rfl] at hp
          rcases ih _ p hp c hcp with hl | hnl | ⟨cur2, pend2, hst, hcur2⟩
          · exact Or.inl (List.mem_cons_of_mem _ hl)
          · exact Or.inr (Or.inl hnl)
          · simp only [Option.some.injEq, Prod.mk.injEq] at hst
            rw [← hst.1] at hcur2
            exact Or.inr (Or.inr ⟨cur, false, rfl, hcur2⟩)
      · simp only [splitParasGo, if_neg hd] at hp
        rcases ih _ p hp c hcp with hl | hnl | ⟨cur2, pend2, hst, hcur2⟩
        · exact Or.inl (List.mem_cons_of_mem _ hl)
        · exact Or.inr (Or.inl hnl)
        · simp only [Option.some.injEq, Prod.mk.injEq] at hst
          rw [← hst.1] at hcur2
          cases pend with
          | true =>
            rw [if_pos rfl] at hcur2
            rcases List.mem_cons.1 hcur2 with he | hcur3
            · subst he; exact Or.inl (List.mem_cons_self _ _)
            · rcases List.mem_cons.1 hcur3 with he | hcur4
              · exact Or.inr (Or.inl he)
              · exact Or.inr (Or.inr ⟨cur, true, rfl, hcur4⟩)
          | false =>
            rw [if_neg (by simp)] at hcur2
            rcases List.mem_cons.1 hcur2 with he | hcur3
            · subst he; exact Or.inl (List.mem_cons_self _ _)
            · exact Or.inr (Or.inr ⟨cur, false, rfl, hcur3⟩)

theorem nonWs_ne_newline {c : Char} (hc : isJsWs c = false) : c ≠ '\n' := by
  intro he; subst he; exact absurd hc (by decide)

theorem hasNonWs_of_mem {c : Char} {l : Str} (hcl : c ∈ l)
    (hc : isJsWs c = false) : hasNonWs l = true :=
  List.any_eq_true.2 ⟨c, hcl, by simp [hc]⟩

theorem exists_nonWs_of_hasNonWs {l : Str} (h : hasNonWs l = true) :
    ∃ c ∈ l, isJsWs c = false := by
  rcases List.any_eq_true.1 h with ⟨c, hcl, hcw⟩
  exact ⟨c, hcl, by simpa using hcw⟩

theorem mem_splitAtParagraphs {t p : Str} (hp : p ∈ splitAtParagraphs t) :
    trimJs p ≠ [] ∧ hasNonWs p = true ∧ p ≠ [] := by
  rcases List.mem_filter.1 hp with ⟨_, hlen⟩
  have htr : trimJs p ≠ [] := by
    intro he
    rw [he] at hlen
    simp at hlen
  have hnw : hasNonWs p = true := hasNonWs_of_trim_ne_nil htr
  exact ⟨htr, hnw, ne_nil_of_trim_ne_nil htr⟩

theorem mem_splitAtSentences {t p : Str} (hp : p ∈ splitAtSentences t) :
    trimJs p ≠ [] ∧ hasNonWs p = true ∧ p ≠ [] := by
  rcases List.mem_filter.1 hp with ⟨_, hlen⟩
  have htr : trimJs p ≠ [] := by
    intro he
    rw [he] at hlen
    simp at hlen
  have hnw : hasNonWs p = true := hasNonWs_of_trim_ne_nil htr
  exact ⟨htr, hnw, ne_nil_of_trim_ne_nil htr⟩

theorem splitAtParagraphs_ne_nil {t : Str} (h : hasNonWs t = true) :
    splitAtParagraphs t ≠ [] := by
  rcases exists_nonWs_of_hasNonWs h with ⟨c, hcl, hc⟩
  rcases splitParasGo_mem (nonWs_ne_newline hc) t (some ([], false)) (Or.inl hcl)
    with ⟨p, hp, hcp⟩
  have hnw : hasNonWs p = true := hasNonWs_of_mem hcp hc
  have htr : trimJs p ≠ [] := by
    intro he
    rw [trimJs_eq_nil_iff] at he
    rw [hnw] at he
    exact Bool.true_eq_false ▸ he
  apply List.ne_nil_of_mem
  exact List.mem_filter.2 ⟨hp, by simp [List.length_pos.2 htr]⟩

theorem splitAtSentences_ne_nil {t : Str} (h : hasNonWs t = true) :
    splitAtSentences t ≠ [] := by
  rcases exists_nonWs_of_hasNonWs h with ⟨c, hcl, hc⟩
  rcases splitSentsGo_mem hc t (some []) (Or.inl hcl) with ⟨p, hp, hcp⟩
  have hnw : hasNonWs p = true := hasNonWs_of_mem hcp hc
  have htr : trimJs p ≠ [] := by
    intro he
    rw [trimJs_eq_nil_iff] at he
    rw [hnw] at he
    exact Bool.true_eq_false ▸ he
  apply List.ne_nil_of_mem
  exact List.mem_filter.2 ⟨hp, by simp [List.length_pos.2 htr]⟩

theorem splitAtParagraphs_eq_nil {t : Str} (h : hasNonWs t = false) :
    splitAtParagraphs t = [] := by
  rw [splitAtParagraphs, List.filter_eq_nil_iff]
  intro p hp
  have hpws : hasNonWs p = false := by
    rw [hasNonWs_eq_false_iff]
    intro c hcp
    rcases splitParasGo_chars t (some ([], false)) p hp c hcp with hl | hnl | ⟨cur, pend, hst, hcur⟩
    · exact hasNonWs_eq_false_iff.1 h c hl
    · subst hnl; decide
    · simp only [Option.some.injEq, Prod.mk.injEq] at hst
      rw [← hst.1] at hcur
      exact absurd hcur (List.not_mem_nil c)
  rw [trimJs_eq_nil_iff.2 hpws]
  simp

/-! Engine lemmas: a successful match of any of the five patterns begins
with a non-whitespace character at the match position. -/

theorem isPrefixOf_cons {c : Char} {tl rem : Str}
    (h : (c :: tl).isPrefixOf rem = true) : ∃ rest, rem = c :: rest := by
  cases rem with
  | nil => simp [List.isPrefixOf] at h
  | cons b bs =>
    simp only [List.isPrefixOf, Bool.and_eq_true, beq_iff_eq] at h
    exact ⟨bs, by rw [h.1]⟩

theorem takeWhile_head {cls : Char → Bool} {l : Str}
    (h : 1 ≤ (l.takeWhile cls).length) : ∃ c tl, l = c :: tl ∧ cls c = true := by
  cases l with
  | nil => simp at h
  | cons c tl =>
    by_cases hc : cls c
    · exact ⟨c, tl, rfl, hc⟩
    · rw [List.takeWhile_cons_of_neg (by simp [hc])] at h
      simp at h

theorem runWith_headBound {P : Char → Bool} :
    ∀ (re : RE) {rem : Str} {pos : Nat} {cp : Caps}
      {k : Str → Nat → Caps → Option (Nat × Caps)} {r : Nat × Caps},
      headBound re P → runWith re rem pos cp k = some r →
      ∃ c tl, rem = c :: tl ∧ P c = true := by
  intro re
  induction re with
  | eps => intro rem pos cp k r hb _; exact absurd hb id
  | eol => intro rem pos cp k r hb _; exact absurd hb id
  | lit cls =>
    intro rem pos cp k r hb h
    cases rem with
    | nil => simp [runWith] at h
    | cons c rest =>
      by_cases hc : cls c
      · exact ⟨c, rest, rfl, hb c hc⟩
      · simp [runWith, hc] at h
  | str s =>
    intro rem pos cp k r hb h
    rcases hb with ⟨c, tl, hs, hPc⟩
    by_cases hpre : s.isPrefixOf rem
    · subst hs
      rcases isPrefixOf_cons hpre with ⟨rest, hrem⟩
      exact ⟨c, rest, hrem, hPc⟩
    · simp [runWith, hpre] at h
  | rep cls lo hi =>
    intro rem pos cp k r hb h
    rcases hb with ⟨hlo, hcls⟩
    simp only [runWith] at h
    set m0 := maxRun cls rem with hm0
    set m := (match hi with | none => m0 | some hh => min m0 hh) with hm
    by_cases hlt : m < lo
    · rw [if_pos hlt] at h
      exact absurd h (by simp)
    · have hm1 : 1 ≤ m := le_trans hlo (Nat.not_lt.1 hlt)
      have hmm0 : m ≤ m0 := by
        rw [hm]
        cases hi with
        | none => exact le_refl _
        | some hh => exact Nat.min_le_left _ _
      have : 1 ≤ (rem.takeWhile cls).length := le_trans hm1 hmm0
      rcases takeWhile_head this with ⟨c, tl, hrem, hc⟩
      exact ⟨c, tl, hrem, hcls c hc⟩
  | seq a b iha ihb =>
    intro rem pos cp k r hb h
    exact iha hb h
  | alt a b iha ihb =>
    intro rem pos cp k r hb h
    simp only [runWith] at h
    cases ha : runWith a rem pos cp k with
    | some r2 => exact iha hb.1 ha
    | none => rw [ha] at h; exact ihb hb.2 h
  | grp i rr ih =>
    intro rem pos cp k r hb h
    exact ih hb h

theorem findFromAux_headBound {re : RE} {P : Char → Bool} (hb : headBound re P)
    (t : Str) :
    ∀ (rem : Str) (atLS : Bool) (pos : Nat) (m : RawMatch),
      rem = t.drop pos → findFromAux re rem atLS pos = some m →
      ∃ c tl, t.drop m.pos = c :: tl ∧ P c = true := by
  intro rem
  induction rem with
  | nil =>
    intro atLS pos m _ h
    cases atLS with
    | false => simp [findFromAux] at h
    | true =>
      simp only [findFromAux, if_pos rfl] at h
      cases hr : runRE re [] pos with
      | none => rw [hr] at h; simp at h
      | some r =>
        rcases runWith_headBound re hb hr with ⟨c, tl, hct, _⟩
        exact absurd hct (by simp)
  | cons c rest ih =>
    intro atLS pos m hdrop h
    simp only [findFromAux] at h
    cases hr : (if atLS then runRE re (c :: rest) pos else none) with
    | some r =>
      rw [hr] at h
      simp only [Option.some.injEq] at h
      cases atLS with
      | false => simp at hr
      | true =>
        rw [if_pos rfl] at hr
        rcases runWith_headBound re hb hr with ⟨c2, tl, hct, hPc⟩
        refine ⟨c2, tl, ?_, hPc⟩
        rw [← h]
        rw [← hdrop]
        exact hct
    | none =>
      rw [hr] at h
      apply ih (isLineTerm c) (pos + 1) m _ h
      have : (t.drop pos).drop 1 = t.drop (pos + 1) := by
        rw [List.drop_drop]
      rw [← this, ← hdrop]
      rfl

theorem execGo_headBound {re : RE} {P : Char → Bool} (hb : headBound re P)
    (t : Str) :
    ∀ (fuel start : Nat) (m : RawMatch), m ∈ execGo re t start fuel →
      ∃ c tl, t.drop m.pos = c :: tl ∧ P c = true := by
  intro fuel
  induction fuel with
  | zero => intro start m h; exact absurd h (List.not_mem_nil m)
  | succ fuel ih =>
    intro start m h
    simp only [execGo] at h
    cases hf : findFromAux re (t.drop start) (atLineStart t start) start with
    | none => rw [hf] at h; exact absurd h (List.not_mem_nil m)
    | some m0 =>
      rw [hf] at h
      rcases List.mem_cons.1 h with he | hrest
      · subst he
        exact findFromAux_headBound hb t (t.drop start) _ start m rfl hf
      · exact ih _ m hrest

theorem execAll_headBound {re : RE} {P : Char → Bool} (hb : headBound re P)
    {t : Str} {m : RawMatch} (h : m ∈ execAll re t) :
    ∃ c tl, t.drop m.pos = c :: tl ∧ P c = true :=
  execGo_headBound hb t _ 0 m h

theorem headBound_pat1 : headBound pat1 (fun c => !(isJsWs c)) :=
  ⟨⟨'C', "HAPTER".toList, by decide, by decide⟩,
   ⟨'C', "hapter".toList, by decide, by decide⟩⟩

theorem headBound_pat2 : headBound pat2 (fun c => !(isJsWs c)) :=
  ⟨⟨'B', "OOK".toList, by decide, by decide⟩,
   ⟨'B', "ook".toList, by decide, by decide⟩⟩

theorem headBound_pat3 : headBound pat3 (fun c => !(isJsWs c)) :=
  ⟨⟨'P', "ART".toList, by decide, by decide⟩,
   ⟨'P', "art".toList, by decide, by decide⟩⟩

theorem headBound_pat4 : headBound pat4 (fun c => !(isJsWs c)) :=
  ⟨Nat.le_refl 1, fun c h => by simp [nonWs_of_roman h]⟩

theorem headBound_pat5 : headBound pat5 (fun c => !(isJsWs c)) :=
  fun c h => by simp [nonWs_of_upper h]

theorem headBound_patterns :
    ∀ p ∈ chapterPatterns, headBound p (fun c => !(isJsWs c)) := by
  intro p hp
  simp only [chapterPatterns, List.mem_cons, List.mem_singleton] at hp
  rcases hp with rfl | rfl | rfl | rfl | rfl | h
  · exact headBound_pat1
  · exact headBound_pat2
  · exact headBound_pat3
  · exact headBound_pat4
  · exact headBound_pat5
  · exact absurd h (List.not_mem_nil p)

/-! Lemmas about the match pool, deduplication and chapter building. -/

theorem toCMatch_position (t : Str) (rm : RawMatch) :
    (toCMatch t rm).position = rm.pos := rfl

theorem collectMatches_mem {t : Str} {m : CMatch} (h : m ∈ collectMatches t) :
    ∃ p ∈ chapterPatterns, ∃ rm ∈ execAll p t, m = toCMatch t rm := by
  unfold collectMatches at h
  rw [List.mem_insertionSort] at h
  rcases List.mem_flatten.1 h with ⟨l2, hl2, hm2⟩
  rcases List.mem_map.1 hl2 with ⟨p, hp, hpe⟩
  rw [← hpe] at hm2
  rcases List.mem_map.1 hm2 with ⟨rm, hrm, heq⟩
  exact ⟨p, hp, rm, hrm, heq.symm⟩

theorem collectMatches_sorted (t : Str) :
    (collectMatches t).Sorted (fun a b => a.position ≤ b.position) :=
  List.sorted_insertionSort _ _

theorem dedupeRest_subset : ∀ (xs : List CMatch) (prev : CMatch),
    dedupeRest prev xs ⊆ xs := by
  intro xs
  induction xs with
  | nil => intro prev; simp [dedupeRest]
  | cons x rest ih =>
    intro prev a ha
    by_cases hc : prev.position + 100 < x.position
    · rw [dedupeRest, if_pos hc] at ha
      rcases List.mem_cons.1 ha with he | ha2
      · subst he; exact List.mem_cons_self _ _
      · exact List.mem_cons_of_mem _ (ih x ha2)
    · rw [dedupeRest, if_neg hc] at ha
      exact List.mem_cons_of_mem _ (ih x ha)

theorem dedupeMatches_subset (l : List CMatch) : dedupeMatches l ⊆ l := by
  cases l with
  | nil => simp [dedupeMatches]
  | cons x xs =>
    intro a ha
    rw [dedupeMatches] at ha
    rcases List.mem_cons.1 ha with he | ha2
    · subst he; exact List.mem_cons_self _ _
    · exact List.mem_cons_of_mem _ (dedupeRest_subset xs x ha2)

theorem kept_match_head {t : Str} :
    ∀ m ∈ dedupeMatches (collectMatches t),
      ∃ c tl, t.drop m.position = c :: tl ∧ isJsWs c = false := by
  intro m hm
  rcases collectMatches_mem (dedupeMatches_subset _ hm) with ⟨p, hp, rm, hrm, he⟩
  rcases execAll_headBound (headBound_patterns p hp) hrm with ⟨c, tl, hct, hPc⟩
  subst he
  rw [toCMatch_position]
  exact ⟨c, tl, hct, by simpa using hPc⟩

theorem kept_match_pos_lt {t : Str} {m : CMatch}
    (hm : m ∈ dedupeMatches (collectMatches t)) : m.position < t.length := by
  rcases kept_match_head m hm with ⟨c, tl, hct, _⟩
  by_contra hge
  rw [Nat.not_lt] at hge
  rw [List.drop_eq_nil_of_le hge] at hct
  exact absurd hct (by simp)

theorem dedupeRest_chain :
    ∀ (xs : List CMatch) (prev a : CMatch),
      (prev :: xs).Sorted (fun x y => x.position ≤ y.position) →
      a.position ≤ prev.position →
      List.Chain' (fun x y => x.position < y.position) (a :: dedupeRest prev xs) := by
  intro xs
  induction xs with
  | nil => intro prev a _ _; simp [dedupeRest]
  | cons y ys ih =>
    intro prev a hs ha
    have hs2 : (y :: ys).Sorted (fun x y => x.position ≤ y.position) :=
      hs.of_cons
    have hpy : prev.position ≤ y.position :=
      List.rel_of_sorted_cons hs y (List.mem_cons_self _ _)
    by_cases hc : prev.position + 100 < y.position
    · rw [dedupeRest, if_pos hc]
      have hay : a.position < y.position := by omega
      have := ih y y hs2 (le_refl _)
      exact List.chain'_cons.2 ⟨hay, this⟩
    · rw [dedupeRest, if_neg hc]
      exact ih y a hs2 (le_trans ha hpy)

theorem dedupeMatches_chain {l : List CMatch}
    (hs : l.Sorted (fun x y => x.position ≤ y.position)) :
    List.Chain' (fun x y => x.position < y.position) (dedupeMatches l) := by
  cases l with
  | nil => simp [dedupeMatches]
  | cons x xs =>
    rw [dedupeMatches]
    exact dedupeRest_chain xs x x hs (le_refl _)


theorem buildChapters_ne_nil (t : Str) :
    ∀ (d : List CMatch), d ≠ [] → buildChapters t d ≠ []
  | [], h => absurd rfl h
  | [m], _ => by simp [buildChapters]
  | m :: m2 :: rest, _ => by simp [buildChapters]

theorem buildChapters_head (t : Str) :
    ∀ (d : List CMatch),
      (buildChapters t d).head?.map (fun c => c.startPosition) =
        d.head?.map (fun m => m.position)
  | [] => rfl
  | [m] => rfl
  | m :: m2 :: rest => rfl

theorem buildChapters_last (t : Str) :
    ∀ (d : List CMatch), d ≠ [] →
      (buildChapters t d).getLast?.map (fun c => c.endPosition) = some t.length
  | [], h => absurd rfl h
  | [m], _ => by simp [buildChapters]
  | m :: m2 :: rest, _ => by
    rw [buildChapters]
    have hne : buildChapters t (m2 :: rest) ≠ [] :=
      buildChapters_ne_nil t (m2 :: rest) (by simp)
    cases h2 : buildChapters t (m2 :: rest) with
    | nil => exact absurd h2 hne
    | cons b bs =>
      rw [List.getLast?_cons_cons, ← h2]
      exact buildChapters_last t (m2 :: rest) (by simp)

theorem buildChapters_chain (t : Str) :
    ∀ (d : List CMatch),
      List.Chain' (fun x y => x.position < y.position) d →
      List.Chain'
        (fun a b => a.endPosition = b.startPosition ∧ a.startPosition < b.startPosition)
        (buildChapters t d)
  | [], _ => by simp [buildChapters]
  | [m], _ => by simp [buildChapters]
  | m :: m2 :: rest, h => by
    rw [buildChapters]
    have hmm2 : m.position < m2.position := (List.chain'_cons.1 h).1
    have hrec := buildChapters_chain t (m2 :: rest) (List.chain'_cons.1 h).2
    apply List.chain'_cons'.2
    refine ⟨?_, hrec⟩
    intro ch2 hch2
    have hh : (buildChapters t (m2 :: rest)).head? = some ch2 :=
      Option.mem_def.1 hch2
    have hhead := buildChapters_head t (m2 :: rest)
    rw [hh] at hhead
    simp only [Option.map_some', List.head?_cons, Option.some.injEq] at hhead
    exact ⟨by simpa using hhead.symm, by simpa using hhead ▸ hmm2⟩

theorem buildChapters_mem (t : Str) :
    ∀ (d : List CMatch),
      List.Chain' (fun x y => x.position < y.position) d →
      (∀ m ∈ d, m.position < t.length) →
      ∀ ch ∈ buildChapters t d,
        ∃ m ∈ d, ch.startPosition = m.position ∧ m.position < ch.endPosition ∧
          ch.text = sliceStr t m.position ch.endPosition
  | [], _, _ => by simp [buildChapters]
  | [m], _, hlt => by
    intro ch hch
    simp only [buildChapters, List.mem_singleton] at hch
    subst hch
    exact ⟨m, List.mem_singleton_self m, rfl,
      hlt m (List.mem_singleton_self m), rfl⟩
  | m :: m2 :: rest, hchain, hlt => by
    intro ch hch
    rw [buildChapters] at hch
    rcases List.mem_cons.1 hch with he | h2
    · subst he
      exact ⟨m, List.mem_cons_self _ _, rfl, (List.chain'_cons.1 hchain).1, rfl⟩
    · rcases buildChapters_mem t (m2 :: rest) (List.chain'_cons.1 hchain).2
        (fun mm hmm => hlt mm (List.mem_cons_of_mem _ hmm)) ch h2 with ⟨mm, hmm, h3⟩
      exact ⟨mm, List.mem_cons_of_mem _ hmm, h3⟩

theorem detectChapters_eq (t : Str) :
    detectChapters t =
      if (buildChapters t (dedupeMatches (collectMatches t))).isEmpty then
        [⟨none, none, 0, t.length, t⟩]
      else buildChapters t (dedupeMatches (collectMatches t)) := rfl

theorem detectChapters_ne_nil (t : Str) : detectChapters t ≠ [] := by
  rw [detectChapters_eq]
  by_cases he : (buildChapters t (dedupeMatches (collectMatches t))).isEmpty
  · rw [if_pos he]; simp
  · rw [if_neg he]
    intro hnil
    rw [hnil] at he
    exact he rfl

theorem detectChapters_text_hasNonWs {t : Str} (h : hasNonWs t = true) :
    ∀ ch ∈ detectChapters t, hasNonWs ch.text = true := by
  intro ch hch
  rw [detectChapters_eq] at hch
  by_cases he : (buildChapters t (dedupeMatches (collectMatches t))).isEmpty
  · rw [if_pos he] at hch
    simp only [List.mem_singleton] at hch
    subst hch
    exact h
  · rw [if_neg he] at hch
    rcases buildChapters_mem t (dedupeMatches (collectMatches t))
      (dedupeMatches_chain (collectMatches_sorted t))
      (fun m hm => kept_match_pos_lt hm) ch hch with ⟨m, hm, _, hlt, htext⟩
    rcases kept_match_head m hm with ⟨c, tl, hct, hc⟩
    rw [htext]
    unfold sliceStr
    rw [hct]
    cases hn : ch.endPosition - m.position with
    | zero => omega
    | succ n =>
      rw [List.take_succ_cons]
      simp [hasNonWs, hc]

/-- C1 (amended): for every input text the detected chapters are non-empty,
contiguous and strictly ordered by `startPosition`, the last chapter ends
at `text.length`, and the first chapter starts at the position of the
first surviving match — which is 0 exactly in the fallback case, but in
general can be positive (text before the first heading is not covered). -/
theorem detectChapters_partition (t : Str) :
    detectChapters t ≠ [] ∧
    List.Chain'
      (fun a b => a.endPosition = b.startPosition ∧ a.startPosition < b.startPosition)
      (detectChapters t) ∧
    (detectChapters t).head?.map (fun c => c.startPosition) =
      some (((dedupeMatches (collectMatches t)).head?.map (fun m => m.position)).getD 0) ∧
    (detectChapters t).getLast?.map (fun c => c.endPosition) = some t.length := by
  rcases hd : dedupeMatches (collectMatches t) with _ | ⟨m, ms⟩
  · have hb : buildChapters t (dedupeMatches (collectMatches t)) = [] := by
      rw [hd]; rfl
    rw [detectChapters_eq, hb]
    simp
  · have hchain : List.Chain' (fun x y => x.position < y.position)
        (dedupeMatches (collectMatches t)) :=
      dedupeMatches_chain (collectMatches_sorted t)
    have hne : buildChapters t (dedupeMatches (collectMatches t)) ≠ [] := by
      rw [hd]
      exact buildChapters_ne_nil t (m :: ms) (by simp)
    have hemp : (buildChapters t (dedupeMatches (collectMatches t))).isEmpty = false := by
      rcases hb : buildChapters t (dedupeMatches (collectMatches t)) with _ | _
      · exact absurd hb hne
      · rfl
    rw [detectChapters_eq, hemp]
    simp only [Bool.false_eq_true, if_false]
    refine ⟨hne, buildChapters_chain t _ hchain, ?_, ?_⟩
    · rw [buildChapters_head, hd]
      simp
    · apply buildChapters_last
      rw [hd]
      simp

/-! Invariants of the chunk-accumulation loops. -/

theorem sentLoop_cc_ne_nil (tc mc : Nat) :
    ∀ (ss : List Str) (st : LoopState), (∀ s ∈ ss, s ≠ []) →
      (ss ≠ [] ∨ st.currentChunk ≠ []) →
      (sentLoop tc mc ss st).currentChunk ≠ [] := by
  intro ss
  induction ss with
  | nil =>
    intro st _ h
    rcases h with h | h
    · exact absurd rfl h
    · simpa [sentLoop] using h
  | cons s rest ih =>
    intro st hall _
    rw [sentLoop]
    apply ih _ (fun x hx => hall x (List.mem_cons_of_mem _ hx))
    right
    have hs : s ≠ [] := hall s (List.mem_cons_self _ _)
    by_cases hcond : tc < st.currentChunk.length +
        ((if st.currentChunk.isEmpty then [] else [' ']) ++ s).length ∧
        mc ≤ st.currentChunk.length
    · simp only [if_pos hcond]
      exact hs
    · simp only [if_neg hcond]
      intro hnil
      rcases List.append_eq_nil.1 hnil with ⟨_, h2⟩
      rcases List.append_eq_nil.1 h2 with ⟨_, h3⟩
      exact hs h3

theorem paraLoop_cc_ne_nil (tc mc mnc : Nat) :
    ∀ (ps : List Str) (st : LoopState), (∀ p ∈ ps, trimJs p ≠ []) →
      (ps ≠ [] ∨ st.currentChunk ≠ []) →
      (paraLoop tc mc mnc ps st).currentChunk ≠ [] := by
  intro ps
  induction ps with
  | nil =>
    intro st _ h
    rcases h with h | h
    · exact absurd rfl h
    · simpa [paraLoop] using h
  | cons p rest ih =>
    intro st hall _
    rw [paraLoop]
    apply ih _ (fun x hx => hall x (List.mem_cons_of_mem _ hx))
    right
    have hptr : trimJs p ≠ [] := hall p (List.mem_cons_self _ _)
    have hp : p ≠ [] := ne_nil_of_trim_ne_nil hptr
    by_cases hc1 : mc < st.currentChunk.length +
        ((if st.currentChunk.isEmpty then [] else ['\n', '\n']) ++ p).length ∧
        mnc ≤ st.currentChunk.length
    · simp only [if_pos hc1]
      exact hp
    · simp only [if_neg hc1]
      by_cases hc2 : mc < p.length
      · simp only [if_pos hc2]
        apply sentLoop_cc_ne_nil
        · intro s hs
          exact (mem_splitAtSentences hs).2.2
        · left
          exact splitAtSentences_ne_nil (hasNonWs_of_trim_ne_nil hptr)
      · simp only [if_neg hc2]
        by_cases hc3 : tc ≤ st.currentChunk.length
        · simp only [if_pos hc3]
          exact hp
        · simp only [if_neg hc3]
          intro hnil
          rcases List.append_eq_nil.1 hnil with ⟨_, h2⟩
          rcases List.append_eq_nil.1 h2 with ⟨_, h3⟩
          exact hp h3

theorem hasNonWs_append_right {a b : Str} (h : hasNonWs b = true) :
    hasNonWs (a ++ b) = true := by
  simp [hasNonWs] at h ⊢
  rcases h with ⟨c, hc1, hc2⟩
  exact Or.inr ⟨c, hc1, hc2⟩

theorem sentLoop_nonWs (tc mc : Nat) (hmc : 1 ≤ mc) :
    ∀ (ss : List Str) (st : LoopState),
      (∀ s ∈ ss, hasNonWs s = true) →
      (st.currentChunk = [] ∨ hasNonWs st.currentChunk = true) →
      (∀ f ∈ st.chunks, hasNonWs f.text = true) →
      ((sentLoop tc mc ss st).currentChunk = [] ∨
        hasNonWs (sentLoop tc mc ss st).currentChunk = true) ∧
      ∀ f ∈ (sentLoop tc mc ss st).chunks, hasNonWs f.text = true := by
  intro ss
  induction ss with
  | nil =>
    intro st _ hcc hch
    exact ⟨by simpa [sentLoop] using hcc, by simpa [sentLoop] using hch⟩
  | cons s rest ih =>
    intro st hall hcc hch
    rw [sentLoop]
    have hs : hasNonWs s = true := hall s (List.mem_cons_self _ _)
    apply ih _ (fun x hx => hall x (List.mem_cons_of_mem _ hx))
    · by_cases hcond : tc < st.currentChunk.length +
          ((if st.currentChunk.isEmpty then [] else [' ']) ++ s).length ∧
          mc ≤ st.currentChunk.length
      · simp only [if_pos hcond]
        exact Or.inr hs
      · simp only [if_neg hcond]
        right
        exact hasNonWs_append_right (hasNonWs_append_right hs)
    · by_cases hcond : tc < st.currentChunk.length +
          ((if st.currentChunk.isEmpty then [] else [' ']) ++ s).length ∧
          mc ≤ st.currentChunk.length
      · simp only [if_pos hcond]
        intro f hf
        rcases List.mem_append.1 hf with hf1 | hf2
        · exact hch f hf1
        · rcases List.mem_singleton.1 hf2 with rfl
          show hasNonWs (trimJs st.currentChunk) = true
          rw [hasNonWs_trimJs]
          rcases hcc with he | hnw
          · rw [he] at hcond
            simp at hcond
            omega
          · exact hnw
      · simp only [if_neg hcond]
        exact hch

theorem paraLoop_nonWs (tc mc mnc : Nat) (hmc : 1 ≤ mnc) (htc : 1 ≤ tc) :
    ∀ (ps : List Str) (st : LoopState),
      (∀ p ∈ ps, hasNonWs p = true) →
      (st.currentChunk = [] ∨ hasNonWs st.currentChunk = true) →
      (∀ f ∈ st.chunks, hasNonWs f.text = true) →
      ((paraLoop tc mc mnc ps st).currentChunk = [] ∨
        hasNonWs (paraLoop tc mc mnc ps st).currentChunk = true) ∧
      ∀ f ∈ (paraLoop tc mc mnc ps st).chunks, hasNonWs f.text = true := by
  intro ps
  induction ps with
  | nil =>
    intro st _ hcc hch
    exact ⟨by simpa [paraLoop] using hcc, by simpa [paraLoop] using hch⟩
  | cons p rest ih =>
    intro st hall hcc hch
    rw [paraLoop]
    have hp : hasNonWs p = true := hall p (List.mem_cons_self _ _)
    have hflush : mnc ≤ st.currentChunk.length → hasNonWs st.currentChunk = true := by
      intro hlen
      rcases hcc with he | hnw
      · rw [he] at hlen; simp at hlen; omega
      · exact hnw
    apply ih _ (fun x hx => hall x (List.mem_cons_of_mem _ hx))
    · by_cases hc1 : mc < st.currentChunk.length +
          ((if st.currentChunk.isEmpty then [] else ['\n', '\n']) ++ p).length ∧
          mnc ≤ st.currentChunk.length
      · simp only [if_pos hc1]
        exact Or.inr hp
      · simp only [if_neg hc1]
        by_cases hc2 : mc < p.length
        · simp only [if_pos hc2]
          refine (sentLoop_nonWs tc mnc hmc _ _
            (fun s hs => (mem_splitAtSentences hs).2.1) ?_ ?_).1
          · by_cases hc4 : mnc ≤ st.currentChunk.length
            · simp only [if_pos hc4]
              left
              trivial
            · simp only [if_neg hc4]
              exact hcc
          · by_cases hc4 : mnc ≤ st.currentChunk.length
            · simp only [if_pos hc4]
              intro f hf
              rcases List.mem_append.1 hf with hf1 | hf2
              · exact hch f hf1
              · rcases List.mem_singleton.1 hf2 with rfl
                show hasNonWs (trimJs st.currentChunk) = true
                rw [hasNonWs_trimJs]
                exact hflush hc4
            · simp only [if_neg hc4]
              exact hch
        · simp only [if_neg hc2]
          by_cases hc3 : tc ≤ st.currentChunk.length
          · simp only [if_pos hc3]
            exact Or.inr hp
          · simp only [if_neg hc3]
            right
            exact hasNonWs_append_right (hasNonWs_append_right hp)
    · by_cases hc1 : mc < st.currentChunk.length +
          ((if st.currentChunk.isEmpty then [] else ['\n', '\n']) ++ p).length ∧
          mnc ≤ st.currentChunk.length
      · simp only [if_pos hc1]
        intro f hf
        rcases List.mem_append.1 hf with hf1 | hf2
        · exact hch f hf1
        · rcases List.mem_singleton.1 hf2 with rfl
          show hasNonWs (trimJs st.currentChunk) = true
          rw [hasNonWs_trimJs]
          exact hflush hc1.2
      · simp only [if_neg hc1]
        by_cases hc2 : mc < p.length
        · simp only [if_pos hc2]
          refine (sentLoop_nonWs tc mnc hmc _ _
            (fun s hs => (mem_splitAtSentences hs).2.1) ?_ ?_).2
          · by_cases hc4 : mnc ≤ st.currentChunk.length
            · simp only [if_pos hc4]
              left
              trivial
            · simp only [if_neg hc4]
              exact hcc
          · by_cases hc4 : mnc ≤ st.currentChunk.length
            · simp only [if_pos hc4]
              intro f hf
              rcases List.mem_append.1 hf with hf1 | hf2
              · exact hch f hf1
              · rcases List.mem_singleton.1 hf2 with rfl
                show hasNonWs (trimJs st.currentChunk) = true
                rw [hasNonWs_trimJs]
                exact hflush hc4
            · simp only [if_neg hc4]
              exact hch
        · simp only [if_neg hc2]
          by_cases hc3 : tc ≤ st.currentChunk.length
          · simp only [if_pos hc3]
            intro f hf
            rcases List.mem_append.1 hf with hf1 | hf2
            · exact hch f hf1
            · rcases List.mem_singleton.1 hf2 with rfl
              show hasNonWs (trimJs st.currentChunk) = true
              rw [hasNonWs_trimJs]
              rcases hcc with he | hnw
              · rw [he] at hc3; simp at hc3; omega
              · exact hnw
          · simp only [if_neg hc3]
            exact hch

theorem paraLoop_bound (tc mc mnc : Nat) :
    ∀ (ps : List Str) (st : LoopState),
      (∀ p ∈ ps, p.length ≤ mc) →
      st.currentChunk.length ≤ mc + mnc + 1 →
      (∀ f ∈ st.chunks, f.text.length ≤ mc + mnc + 1) →
      (paraLoop tc mc mnc ps st).currentChunk.length ≤ mc + mnc + 1 ∧
      ∀ f ∈ (paraLoop tc mc mnc ps st).chunks, f.text.length ≤ mc + mnc + 1 := by
  intro ps
  induction ps with
  | nil =>
    intro st _ hcc hch
    exact ⟨by simpa [paraLoop] using hcc, by simpa [paraLoop] using hch⟩
  | cons p rest ih =>
    intro st hall hcc hch
    rw [paraLoop]
    have hp : p.length ≤ mc := hall p (List.mem_cons_self _ _)
    have hc2 : ¬ (mc < p.length) := Nat.not_lt.2 hp
    have hpush : (trimJs st.currentChunk).length ≤ mc + mnc + 1 :=
      le_trans (trimJs_length_le _) hcc
    apply ih _ (fun x hx => hall x (List.mem_cons_of_mem _ hx))
    · by_cases hc1 : mc < st.currentChunk.length +
          ((if st.currentChunk.isEmpty then [] else ['\n', '\n']) ++ p).length ∧
          mnc ≤ st.currentChunk.length
      · simp only [if_pos hc1]
        omega
      · simp only [if_neg hc1, if_neg hc2]
        by_cases hc3 : tc ≤ st.currentChunk.length
        · simp only [if_pos hc3]
          omega
        · simp only [if_neg hc3]
          show (st.currentChunk ++
            ((if st.currentChunk.isEmpty then [] else ['\n', '\n']) ++ p)).length ≤
              mc + mnc + 1
          have hsep :
              ((if st.currentChunk.isEmpty then [] else ['\n', '\n']) : Str).length ≤ 2 := by
            by_cases hce : st.currentChunk.isEmpty <;> simp [hce]
          rw [List.length_append, List.length_append]
          rw [Classical.not_and_iff_or_not_not] at hc1
          rcases hc1 with hc1 | hc1
          · rw [Nat.not_lt, List.length_append] at hc1
            omega
          · rw [Nat.not_le] at hc1
            omega
    · by_cases hc1 : mc < st.currentChunk.length +
          ((if st.currentChunk.isEmpty then [] else ['\n', '\n']) ++ p).length ∧
          mnc ≤ st.currentChunk.length
      · simp only [if_pos hc1]
        intro f hf
        rcases List.mem_append.1 hf with hf1 | hf2
        · exact hch f hf1
        · rcases List.mem_singleton.1 hf2 with rfl
          exact hpush
      · simp only [if_neg hc1, if_neg hc2]
        by_cases hc3 : tc ≤ st.currentChunk.length
        · simp only [if_pos hc3]
          intro f hf
          rcases List.mem_append.1 hf with hf1 | hf2
          · exact hch f hf1
          · rcases List.mem_singleton.1 hf2 with rfl
            exact hpush
        · simp only [if_neg hc3]
          exact hch

theorem sentLoop_trimmed (tc mc : Nat) :
    ∀ (ss : List Str) (st : LoopState),
      (∀ f ∈ st.chunks, f.text = trimJs f.text) →
      ∀ f ∈ (sentLoop tc mc ss st).chunks, f.text = trimJs f.text := by
  intro ss
  induction ss with
  | nil => intro st hch; simpa [sentLoop] using hch
  | cons s rest ih =>
    intro st hch
    rw [sentLoop]
    apply ih
    by_cases hcond : tc < st.currentChunk.length +
        ((if st.currentChunk.isEmpty then [] else [' ']) ++ s).length ∧
        mc ≤ st.currentChunk.length
    · simp only [if_pos hcond]
      intro f hf
      rcases List.mem_append.1 hf with hf1 | hf2
      · exact hch f hf1
      · rcases List.mem_singleton.1 hf2 with rfl
        exact (trimJs_idem _).symm
    · simp only [if_neg hcond]
      exact hch

theorem paraLoop_trimmed (tc mc mnc : Nat) :
    ∀ (ps : List Str) (st : LoopState),
      (∀ f ∈ st.chunks, f.text = trimJs f.text) →
      ∀ f ∈ (paraLoop tc mc mnc ps st).chunks, f.text = trimJs f.text := by
  intro ps
  induction ps with
  | nil => intro st hch; simpa [paraLoop] using hch
  | cons p rest ih =>
    intro st hch
    rw [paraLoop]
    apply ih
    by_cases hc1 : mc < st.currentChunk.length +
        ((if st.currentChunk.isEmpty then [] else ['\n', '\n']) ++ p).length ∧
        mnc ≤ st.currentChunk.length
    · simp only [if_pos hc1]
      intro f hf
      rcases List.mem_append.1 hf with hf1 | hf2
      · exact hch f hf1
      · rcases List.mem_singleton.1 hf2 with rfl
        exact (trimJs_idem _).symm
    · simp only [if_neg hc1]
      by_cases hc2 : mc < p.length
      · simp only [if_pos hc2]
        apply sentLoop_trimmed
        by_cases hc4 : mnc ≤ st.currentChunk.length
        · simp only [if_pos hc4]
          intro f hf
          rcases List.mem_append.1 hf with hf1 | hf2
          · exact hch f hf1
          · rcases List.mem_singleton.1 hf2 with rfl
            exact (trimJs_idem _).symm
        · simp only [if_neg hc4]
          exact hch
      · simp only [if_neg hc2]
        by_cases hc3 : tc ≤ st.currentChunk.length
        · simp only [if_pos hc3]
          intro f hf
          rcases List.mem_append.1 hf with hf1 | hf2
          · exact hch f hf1
          · rcases List.mem_singleton.1 hf2 with rfl
            exact (trimJs_idem _).symm
        · simp only [if_neg hc3]
          exact hch

/-! Chapter-level consequences. -/

theorem chunkChapter_ne_nil {chapter : Chapter} {opts : ChunkOptions} {off : Nat}
    (h : hasNonWs chapter.text = true) : chunkChapter chapter opts off ≠ [] := by
  rw [chunkChapter]
  by_cases hfit : chapter.text.length ≤ opts.maxTokens * opts.charsPerToken
  · rw [if_pos hfit]
    simp
  · rw [if_neg hfit]
    have hcc := paraLoop_cc_ne_nil
      (opts.targetTokens * opts.charsPerToken)
      (opts.maxTokens * opts.charsPerToken)
      (opts.minTokens * opts.charsPerToken)
      (splitAtParagraphs chapter.text)
      ⟨[], off + chapter.startPosition, off + chapter.startPosition, []⟩
      (fun p hp => (mem_splitAtParagraphs hp).1)
      (Or.inl (splitAtParagraphs_ne_nil h))
    rw [if_pos (List.length_pos.2 hcc)]
    simp

theorem chunkChapter_hasNonWs {chapter : Chapter} {opts : ChunkOptions} {off : Nat}
    (hmn : 1 ≤ opts.minTokens * opts.charsPerToken)
    (htg : 1 ≤ opts.targetTokens * opts.charsPerToken)
    (h : hasNonWs chapter.text = true) :
    ∀ f ∈ chunkChapter chapter opts off, hasNonWs f.text = true := by
  intro f hf
  rw [chunkChapter] at hf
  by_cases hfit : chapter.text.length ≤ opts.maxTokens * opts.charsPerToken
  · rw [if_pos hfit] at hf
    rcases List.mem_singleton.1 hf with rfl
    exact h
  · rw [if_neg hfit] at hf
    have hloop := paraLoop_nonWs
      (opts.targetTokens * opts.charsPerToken)
      (opts.maxTokens * opts.charsPerToken)
      (opts.minTokens * opts.charsPerToken) hmn htg
      (splitAtParagraphs chapter.text)
      ⟨[], off + chapter.startPosition, off + chapter.startPosition, []⟩
      (fun p hp => (mem_splitAtParagraphs hp).2.1)
      (Or.inl rfl)
      (by intro f2 hf2; exact absurd hf2 (List.not_mem_nil f2))
    by_cases hccpos : 0 < (paraLoop
        (opts.targetTokens * opts.charsPerToken)
        (opts.maxTokens * opts.charsPerToken)
        (opts.minTokens * opts.charsPerToken)
        (splitAtParagraphs chapter.text)
        ⟨[], off + chapter.startPosition, off + chapter.startPosition, []⟩).currentChunk.length
    · rw [if_pos hccpos] at hf
      rcases List.mem_append.1 hf with hf1 | hf2
      · exact hloop.2 f hf1
      · rcases List.mem_singleton.1 hf2 with rfl
        show hasNonWs (trimJs _) = true
        rw [hasNonWs_trimJs]
        rcases hloop.1 with he | hnw
        · rw [he] at hccpos
          simp at hccpos
        · exact hnw
    · rw [if_neg hccpos] at hf
      exact hloop.2 f hf

theorem chunkChapter_bound {chapter : Chapter} {opts : ChunkOptions} {off : Nat}
    (hp : ∀ p ∈ splitAtParagraphs chapter.text,
      p.length ≤ opts.maxTokens * opts.charsPerToken) :
    ∀ f ∈ chunkChapter chapter opts off,
      f.text.length ≤
        opts.maxTokens * opts.charsPerToken + opts.minTokens * opts.charsPerToken + 1 := by
  intro f hf
  rw [chunkChapter] at hf
  by_cases hfit : chapter.text.length ≤ opts.maxTokens * opts.charsPerToken
  · rw [if_pos hfit] at hf
    rcases List.mem_singleton.1 hf with rfl
    show chapter.text.length ≤ _
    omega
  · rw [if_neg hfit] at hf
    have hloop := paraLoop_bound
      (opts.targetTokens * opts.charsPerToken)
      (opts.maxTokens * opts.charsPerToken)
      (opts.minTokens * opts.charsPerToken)
      (splitAtParagraphs chapter.text)
      ⟨[], off + chapter.startPosition, off + chapter.startPosition, []⟩
      hp (by simp)
      (by intro f2 hf2; exact absurd hf2 (List.not_mem_nil f2))
    by_cases hccpos : 0 < (paraLoop
        (opts.targetTokens * opts.charsPerToken)
        (opts.maxTokens * opts.charsPerToken)
        (opts.minTokens * opts.charsPerToken)
        (splitAtParagraphs chapter.text)
        ⟨[], off + chapter.startPosition, off + chapter.startPosition, []⟩).currentChunk.length
    · rw [if_pos hccpos] at hf
      rcases List.mem_append.1 hf with hf1 | hf2
      · exact hloop.2 f hf1
      · rcases List.mem_singleton.1 hf2 with rfl
        exact le_trans (trimJs_length_le _) hloop.1
    · rw [if_neg hccpos] at hf
      exact hloop.2 f hf

theorem chunkChapter_trimmed {chapter : Chapter} {opts : ChunkOptions} {off : Nat} :
    ∀ f ∈ chunkChapter chapter opts off,
      f.text = trimJs f.text ∨
        (chapter.text.length ≤ opts.maxTokens * opts.charsPerToken ∧
          f.text = chapter.text) := by
  intro f hf
  rw [chunkChapter] at hf
  by_cases hfit : chapter.text.length ≤ opts.maxTokens * opts.charsPerToken
  · rw [if_pos hfit] at hf
    rcases List.mem_singleton.1 hf with rfl
    exact Or.inr ⟨hfit, rfl⟩
  · rw [if_neg hfit] at hf
    have hloop := paraLoop_trimmed
      (opts.targetTokens * opts.charsPerToken)
      (opts.maxTokens * opts.charsPerToken)
      (opts.minTokens * opts.charsPerToken)
      (splitAtParagraphs chapter.text)
      ⟨[], off + chapter.startPosition, off + chapter.startPosition, []⟩
      (by intro f2 hf2; exact absurd hf2 (List.not_mem_nil f2))
    by_cases hccpos : 0 < (paraLoop
        (opts.targetTokens * opts.charsPerToken)
        (opts.maxTokens * opts.charsPerToken)
        (opts.minTokens * opts.charsPerToken)
        (splitAtParagraphs chapter.text)
        ⟨[], off + chapter.startPosition, off + chapter.startPosition, []⟩).currentChunk.length
    · rw [if_pos hccpos] at hf
      rcases List.mem_append.1 hf with hf1 | hf2
      · exact Or.inl (hloop f hf1)
      · rcases List.mem_singleton.1 hf2 with rfl
        exact Or.inl (trimJs_idem _).symm
    · rw [if_neg hccpos] at hf
      exact Or.inl (hloop f hf)

/-! Whitespace-only inputs: no pattern matches, and a whitespace-only
chapter longer than `maxChars` produces no chunks at all. -/

theorem execAll_eq_nil_allWs {re : RE} (hb : headBound re (fun c => !(isJsWs c)))
    {t : Str} (hws : hasNonWs t = false) : execAll re t = [] := by
  cases he : execAll re t with
  | nil => rfl
  | cons m ms =>
    have hm : m ∈ execAll re t := by rw [he]; exact List.mem_cons_self _ _
    rcases execAll_headBound hb hm with ⟨c, tl, hct, hPc⟩
    have hcl : c ∈ t :=
      List.mem_of_mem_drop (by rw [hct]; exact List.mem_cons_self _ _)
    have hc2 := hasNonWs_eq_false_iff.1 hws c hcl
    rw [hc2] at hPc
    exact absurd hPc (by decide)

theorem collectMatches_eq_nil {t : Str} (hws : hasNonWs t = false) :
    collectMatches t = [] := by
  unfold collectMatches
  rw [show chapterPatterns = [pat1, pat2, pat3, pat4, pat5] from rfl]
  simp only [List.map_cons, List.map_nil]
  rw [execAll_eq_nil_allWs headBound_pat1 hws,
    execAll_eq_nil_allWs headBound_pat2 hws,
    execAll_eq_nil_allWs headBound_pat3 hws,
    execAll_eq_nil_allWs headBound_pat4 hws,
    execAll_eq_nil_allWs headBound_pat5 hws]
  rfl

theorem chunkBook_allWs {t : Str} {opts : ChunkOptions} (hws : hasNonWs t = false)
    (hlen : opts.maxTokens * opts.charsPerToken < t.length) :
    chunkBook t opts = [] := by
  have hdet : detectChapters t = [⟨none, none, 0, t.length, t⟩] := by
    rw [detectChapters_eq, collectMatches_eq_nil hws]
    rfl
  have hchap : chunkChapter ⟨none, none, 0, t.length, t⟩ opts 0 = [] := by
    rw [chunkChapter]
    rw [if_neg (by simpa using Nat.not_le.2 hlen)]
    show (if 0 < (paraLoop _ _ _ (splitAtParagraphs t) _).currentChunk.length
      then _ else _) = _
    rw [splitAtParagraphs_eq_nil hws]
    rw [paraLoop]
    simp
  simp only [chunkBook, hdet, chunkAll, hchap]
  simp

/-! Book-level lemmas. -/

theorem chunkAll_mem {opts : ChunkOptions} :
    ∀ (chs : List Chapter) (k : Nat) (c : BookChunk), c ∈ chunkAll opts chs k →
      ∃ ch ∈ chs, ∃ f ∈ chunkChapter ch opts 0,
        c.text = f.text ∧ c.wordCount = countWords f.text := by
  intro chs
  induction chs with
  | nil => intro k c hc; exact absurd hc (List.not_mem_nil c)
  | cons ch rest ih =>
    intro k c hc
    rw [chunkAll] at hc
    rcases List.mem_append.1 hc with h1 | h2
    · rcases List.mem_map.1 h1 with ⟨p, hp, he⟩
      have hf : p.2 ∈ chunkChapter ch opts 0 :=
        List.snd_mem_of_mem_enumFrom hp
      exact ⟨ch, List.mem_cons_self _ _, p.2, hf, by rw [← he], by rw [← he]⟩
    · rcases ih _ c h2 with ⟨ch2, hch2, f, hf, he1, he2⟩
      exact ⟨ch2, List.mem_cons_of_mem _ hch2, f, hf, he1, he2⟩

theorem chunkBook_eq (text : Str) (opts : ChunkOptions) :
    chunkBook text opts =
      (chunkAll opts (detectChapters text) 1).map
        (fun c => { c with totalChunks := (chunkAll opts (detectChapters text) 1).length }) :=
  rfl

theorem chunkBook_mem {text : Str} {opts : ChunkOptions} {c : BookChunk}
    (hc : c ∈ chunkBook text opts) :
    ∃ ch ∈ detectChapters text, ∃ f ∈ chunkChapter ch opts 0,
      c.text = f.text ∧ c.wordCount = countWords f.text := by
  rw [chunkBook_eq] at hc
  rcases List.mem_map.1 hc with ⟨c0, hc0, he⟩
  rcases chunkAll_mem (detectChapters text) 1 c0 hc0 with ⟨ch, hch, f, hf, he1, he2⟩
  exact ⟨ch, hch, f, hf, by rw [← he]; exact he1, by rw [← he]; exact he2⟩


theorem chunkAll_numbers {opts : ChunkOptions} :
    ∀ (chs : List Chapter) (k : Nat),
      (chunkAll opts chs k).map (fun c => c.chunkNumber) =
        List.range' k (chunkAll opts chs k).length := by
  intro chs
  induction chs with
  | nil => intro k; rfl
  | cons ch rest ih =>
    intro k
    have h1 : ∀ (fr : List Frag) (i : Nat),
        ((fr.enumFrom i).map (fun p =>
          ({ chunkNumber := k + p.1
             totalChunks := 0
             text := p.2.text
             tokenCount := estimateTokens p.2.text opts.charsPerToken
             wordCount := countWords p.2.text
             chapterTitle := ch.title
             chapterNumber := ch.number
             isChapterStart := p.1 == 0
             startPosition := p.2.startOffset
             endPosition := p.2.endOffset } : BookChunk))).map
            (fun c => c.chunkNumber) = List.range' (k + i) fr.length := by
      intro fr
      induction fr with
      | nil => intro i; rfl
      | cons x xs ihf =>
        intro i
        rw [List.enumFrom_cons, List.map_cons, List.map_cons, List.length_cons,
          List.range'_succ]
        congr 1
        rw [ihf (i + 1)]
        have : k + (i + 1) = k + i + 1 := by omega
        rw [this]
    rw [chunkAll, List.map_append, List.length_append]
    simp only [List.enum]
    have h2 := h1 (chunkChapter ch opts 0) 0
    rw [Nat.add_zero] at h2
    rw [h2, ih]
    have h3 : (((chunkChapter ch opts 0).enumFrom 0).map (fun p =>
          ({ chunkNumber := k + p.1
             totalChunks := 0
             text := p.2.text
             tokenCount := estimateTokens p.2.text opts.charsPerToken
             wordCount := countWords p.2.text
             chapterTitle := ch.title
             chapterNumber := ch.number
             isChapterStart := p.1 == 0
             startPosition := p.2.startOffset
             endPosition := p.2.endOffset } : BookChunk))).length =
        (chunkChapter ch opts 0).length := by
      rw [List.length_map]
      exact List.enumFrom_length
    rw [h3, Nat.add_comm (chunkChapter ch opts 0).length _]
    exact List.range'_append_1 k (chunkChapter ch opts 0).length _

theorem dedupeRest_eq_enumFrom (full : List CMatch) :
    ∀ (xs : List CMatch) (prev : CMatch) (k : Nat),
      full.drop k = prev :: xs →
      dedupeRest prev xs =
        (xs.enumFrom (k + 1)).filterMap (fun p =>
          if p.1 = 0 then some p.2
          else
            match full[p.1 - 1]? with
            | some prev2 =>
              if prev2.position + 100 < p.2.position then some p.2 else none
            | none => none)
  | [], _, _, _ => by simp [dedupeRest]
  | y :: ys, prev, k, h => by
    have hklt : k < full.length := by
      by_contra hge
      rw [Nat.not_lt] at hge
      rw [List.drop_eq_nil_of_le hge] at h
      exact absurd h (by simp)
    have hcons := List.drop_eq_getElem_cons hklt
    rw [h] at hcons
    injection hcons with h1 h2
    have hk : full[k]? = some prev := by
      rw [List.getElem?_eq_getElem hklt, ← h1]
    have hdrop : full.drop (k + 1) = y :: ys := h2.symm
    rw [List.enumFrom_cons, List.filterMap_cons]
    have hne : ¬ (k + 1 = 0) := by omega
    simp only [if_neg hne, Nat.add_sub_cancel, hk]
    by_cases hc : prev.position + 100 < y.position
    · rw [dedupeRest, if_pos hc]
      simp only [if_pos hc]
      rw [dedupeRest_eq_enumFrom full ys y (k + 1) hdrop]
    · rw [dedupeRest, if_neg hc]
      simp only [if_neg hc]
      rw [dedupeRest_eq_enumFrom full ys y (k + 1) hdrop]

/-! Claim theorems. -/

/-- C1 (counterexample): on the text `"z\nII. a"` the only heading match
is at position 2, so the single detected chapter starts at 2, not 0, and
`[0, 2)` is not covered: the claim that chapters always partition
`[0, text.length)` starting at 0 is false. -/
theorem chaptersPartitionFromZero_false :
    preambleText ≠ [] ∧ ¬ chaptersPartitionFromZero preambleText := by
  constructor
  · decide
  · intro h
    have h3 := h.2.2.1
    have hc : (detectChapters preambleText).head?.map (fun c => c.startPosition) =
        some 2 := by decide
    rw [hc] at h3
    exact absurd h3 (by decide)

set_option maxRecDepth 10000 in
/-- C2 (counterexample): on the scenario text the two `CHAPTER` headings
are 29 characters apart, within the 100-character deduplication radius,
so `detectChapters` returns one chapter and `chunkBook` one chunk — not
two of each as the claim states. -/
theorem scenarioClaim_false : ¬ scenarioClaim := by
  intro h
  have h1 := h.1
  have hc : (detectChapters scenarioText).map (fun ch => ch.number) = [some 1] := by
    decide
  rw [hc] at h1
  exact absurd h1 (by decide)

set_option maxRecDepth 10000 in
/-- C2 (amended): on the scenario text `detectChapters` returns exactly
one chapter (number 1, spanning the whole text — the second heading is
deduplicated away as it lies within 100 characters of the first), and
`chunkBook` returns exactly one chunk with `chunkNumber = 1`,
`totalChunks = 1` and `isChapterStart = true`. -/
theorem scenario_one_chapter :
    (detectChapters scenarioText).map
      (fun ch => (ch.number, ch.startPosition, ch.endPosition)) = [(some 1, 0, 58)] ∧
    (chunkBook scenarioText DEFAULT_OPTIONS).map
      (fun c => (c.chunkNumber, c.totalChunks, c.isChapterStart)) = [(1, 1, true)] := by
  constructor
  · decide
  · decide

set_option maxRecDepth 100000 in
/-- C3 (counterexample): with headings at positions 0, 60 and 130, the
source's deduplication (which compares against the previous element of
the sorted array, kept or not) keeps only the match at 0, while the
claimed keep-relative-to-last-kept rule would also keep the match at
130. -/
theorem dedupe_ne_lastKept :
    dedupeMatches (collectMatches tripleHeadingText) ≠
      lastKeptRule (collectMatches tripleHeadingText) ∧
    (dedupeMatches (collectMatches tripleHeadingText)).map (fun m => m.position) =
      [0] ∧
    (lastKeptRule (collectMatches tripleHeadingText)).map (fun m => m.position) =
      [0, 130] := by
  refine ⟨?_, by decide, by decide⟩
  decide

/-- C3 (amended): the deduplication pass keeps the first match, and keeps
every later match whose position exceeds by more than 100 the position of
the immediately preceding match in the sorted pooled array — whether or
not that preceding match was itself kept. -/
theorem dedupeMatches_eq_adjacentKeptRule (l : List CMatch) :
    dedupeMatches l = adjacentKeptRule l := by
  cases l with
  | nil => rfl
  | cons x xs =>
    rw [dedupeMatches, adjacentKeptRule]
    simp only [List.enum]
    rw [List.enumFrom_cons, List.filterMap_cons]
    simp only [if_pos rfl]
    rw [dedupeRest_eq_enumFrom (x :: xs) xs x 0 (by simp)]
    norm_num

/-- C9: roman numeral and integer parsing of captured heading tokens:
`"IV"` parses to 4 (through the roman fallback since `parseInt` fails),
`"IX"` to 9, `"MCMXCIX"` to 1999, `"ABC"` to no number at all, and the
arabic `"3"` is already accepted by the integer parser, so the roman
interpreter is never consulted for it. -/
theorem parseChapterNum_spec :
    parseChapterNum "IV".toList = some 4 ∧
    parseIntJS "IV".toList = none ∧
    romanToInt "IV".toList = some 4 ∧
    parseChapterNum "IX".toList = some 9 ∧
    parseChapterNum "MCMXCIX".toList = some 1999 ∧
    parseChapterNum "ABC".toList = none ∧
    parseIntJS "3".toList = some 3 ∧
    parseChapterNum "3".toList = some 3 := by
  decide

/-- C10: on the empty string the fallback fires and `chunkBook` returns
exactly one chunk with empty text, zero token and word counts,
`chunkNumber = totalChunks = 1`, `isChapterStart = true`, no chapter
title or number, and the empty span `[0, 0)`. -/
theorem chunkBook_empty :
    chunkBook [] DEFAULT_OPTIONS =
      [{ chunkNumber := 1, totalChunks := 1, text := [], tokenCount := 0,
         wordCount := 0, chapterTitle := none, chapterNumber := none,
         isChapterStart := true, startPosition := 0, endPosition := 0 }] := by
  decide

/-- C4 (counterexample): 16001 spaces form a non-empty input on which
`chunkBook` with the default policy returns no chunks at all — the
fallback chapter exceeds `maxChars` and contains no paragraph, so the
accumulation loop never runs and nothing is flushed. -/
theorem chunkBook_allWs_counterexample :
    allWsText ≠ [] ∧ chunkBook allWsText DEFAULT_OPTIONS = [] := by
  constructor
  · rw [allWsText]
    intro he
    have := congrArg List.length he
    rw [List.length_replicate] at this
    simp at this
  · apply chunkBook_allWs
    · rw [hasNonWs_eq_false_iff]
      intro c hc
      rw [List.eq_of_mem_replicate hc]
      decide
    · show DEFAULT_OPTIONS.maxTokens * DEFAULT_OPTIONS.charsPerToken < allWsText.length
      rw [allWsText, List.length_replicate]
      decide

/-- C4 (amended): for every input text containing at least one
non-whitespace character and every size policy, `chunkBook` returns at
least one chunk. -/
theorem chunkBook_ne_nil {text : Str} {opts : ChunkOptions}
    (h : hasNonWs text = true) : chunkBook text opts ≠ [] := by
  rw [chunkBook_eq]
  intro hnil
  rw [List.map_eq_nil_iff] at hnil
  rcases hch : detectChapters text with _ | ⟨ch, rest⟩
  · exact detectChapters_ne_nil text hch
  · rw [hch, chunkAll] at hnil
    rcases List.append_eq_nil.1 hnil with ⟨h1, _⟩
    rw [List.map_eq_nil_iff] at h1
    have hfrs : chunkChapter ch opts 0 ≠ [] := by
      apply chunkChapter_ne_nil
      exact detectChapters_text_hasNonWs h ch
        (by rw [hch]; exact List.mem_cons_self _ _)
    apply hfrs
    cases hf : chunkChapter ch opts 0 with
    | nil => rfl
    | cons a as =>
      rw [hf] at h1
      simp [List.enum] at h1

/-- C4 (witness): the one-character text `"a"` yields at least one chunk. -/
theorem chunkBook_ne_nil_witness :
    hasNonWs "a".toList = true ∧ chunkBook "a".toList DEFAULT_OPTIONS ≠ [] :=
  ⟨by decide, chunkBook_ne_nil (by decide)⟩

/-- C5 (counterexample): the non-empty text `"\n"` yields a single chunk
with `wordCount = 0`, refuting the claim that every chunk of a non-empty
text has a positive word count. -/
theorem chunkBook_wordCount_counterexample :
    ('\n' :: []) ≠ ([] : Str) ∧
    ¬ (∀ c ∈ chunkBook ['\n'] DEFAULT_OPTIONS, 1 ≤ c.wordCount ∧ c.text ≠ []) := by
  exact ⟨by decide, by decide⟩

/-- C5 (amended): for every input containing a non-whitespace character,
under any size policy whose `minChars` and `targetChars` are positive (as
the default policy's are), every chunk returned by `chunkBook` has a
positive word count and non-empty text. -/
theorem chunkBook_wordCount_pos {text : Str} {opts : ChunkOptions}
    (h : hasNonWs text = true)
    (hmn : 1 ≤ opts.minTokens * opts.charsPerToken)
    (htg : 1 ≤ opts.targetTokens * opts.charsPerToken) :
    ∀ c ∈ chunkBook text opts, 1 ≤ c.wordCount ∧ c.text ≠ [] := by
  intro c hc
  rcases chunkBook_mem hc with ⟨ch, hch, f, hf, he1, he2⟩
  have hchnw := detectChapters_text_hasNonWs h ch hch
  have hfnw := chunkChapter_hasNonWs hmn htg hchnw f hf
  constructor
  · rw [he2]
    exact countWords_pos hfnw
  · rw [he1]
    intro hnil
    rw [hnil] at hfnw
    exact absurd hfnw (by decide)

/-- C5 (witness): on the text `"a"` with the default policy the single
chunk has a positive word count and non-empty text. -/
theorem chunkBook_wordCount_pos_witness :
    1 ≤ (⟨1, 1, ['a'], 1, 1, none, none, true, 0, 1⟩ : BookChunk).wordCount ∧
    (⟨1, 1, ['a'], 1, 1, none, none, true, 0, 1⟩ : BookChunk).text ≠ [] :=
  @chunkBook_wordCount_pos "a".toList DEFAULT_OPTIONS
    (by decide) (by decide) (by decide) _ (by decide)

/-- C6 (counterexample): on the text `" a "` (no heading matches, whole
text within `maxChars`) the single chunk's text is `" a "` verbatim,
untrimmed — the whole-chapter single-chunk path does not trim. -/
theorem chunkBook_trim_counterexample :
    ¬ (∀ c ∈ chunkBook (' ' :: 'a' :: ' ' :: []) DEFAULT_OPTIONS,
        c.text = trimJs c.text) := by
  decide

/-- C6 (amended): every chunk produced by the paragraph/sentence
splitting path is trimmed of leading and trailing whitespace; a chunk
produced by the whole-chapter single-chunk path instead carries the
chapter's text verbatim (untrimmed). -/
theorem chunkBook_text_trimmed (text : Str) (opts : ChunkOptions) :
    ∀ c ∈ chunkBook text opts,
      c.text = trimJs c.text ∨
        ∃ ch ∈ detectChapters text,
          ch.text.length ≤ opts.maxTokens * opts.charsPerToken ∧ c.text = ch.text := by
  intro c hc
  rcases chunkBook_mem hc with ⟨ch, hch, f, hf, he1, _⟩
  rcases chunkChapter_trimmed f hf with h1 | ⟨h2, h3⟩
  · left
    rw [he1]
    exact h1
  · right
    exact ⟨ch, hch, h2, by rw [he1]; exact h3⟩

/-- C6 (witness): instantiated on the text `"a"` and its single chunk. -/
theorem chunkBook_text_trimmed_witness :
    (⟨1, 1, ['a'], 1, 1, none, none, true, 0, 1⟩ : BookChunk).text =
      trimJs (⟨1, 1, ['a'], 1, 1, none, none, true, 0, 1⟩ : BookChunk).text ∨
    ∃ ch ∈ detectChapters "a".toList,
      ch.text.length ≤ DEFAULT_OPTIONS.maxTokens * DEFAULT_OPTIONS.charsPerToken ∧
      (⟨1, 1, ['a'], 1, 1, none, none, true, 0, 1⟩ : BookChunk).text = ch.text :=
  chunkBook_text_trimmed "a".toList DEFAULT_OPTIONS _ (by decide)

set_option maxRecDepth 10000 in
/-- C7 (counterexample): with the policy `{target 30, max 40, min 10,
1 char/token}` and a chapter of estimated size 267 ≥ maxTokens, the
emitted chunk sizes are `[1, 38, 38, 45, 38, 45, 38]`: two chunks exceed
`maxTokens = 40`, and the 1-token first chunk is below `minTokens = 10`
without being the final fragment — both halves of the claim fail. -/
theorem sizeBoundClaim_false : ¬ sizeBoundClaim wideChapter widePolicy 0 := by
  unfold sizeBoundClaim
  decide

/-- C7 (amended): for any chapter in which no paragraph exceeds
`maxChars`, every chunk emitted by `chunkChapter` has at most
`maxChars + minChars + 1` characters (so roughly `maxTokens + minTokens`
estimated tokens); individual chunks may still exceed `maxTokens`, and
more than one may do so. -/
theorem chunkChapter_size_bound (chapter : Chapter) (opts : ChunkOptions) (off : Nat)
    (hp : ∀ p ∈ splitAtParagraphs chapter.text,
      p.length ≤ opts.maxTokens * opts.charsPerToken) :
    ∀ f ∈ chunkChapter chapter opts off,
      f.text.length ≤
        opts.maxTokens * opts.charsPerToken +
          opts.minTokens * opts.charsPerToken + 1 :=
  chunkChapter_bound hp

/-- C7 (witness): instantiated on a one-character chapter with the
default policy. -/
theorem chunkChapter_size_bound_witness :
    ({ text := ['a'], startOffset := 0, endOffset := 1 } : Frag).text.length ≤
      DEFAULT_OPTIONS.maxTokens * DEFAULT_OPTIONS.charsPerToken +
        DEFAULT_OPTIONS.minTokens * DEFAULT_OPTIONS.charsPerToken + 1 :=
  chunkChapter_size_bound ⟨none, none, 0, 1, ['a']⟩ DEFAULT_OPTIONS 0
    (by decide) _ (by decide)

/-- C8: for every input text and size policy the `chunkNumber` fields of
`chunkBook`'s result are exactly `1..N` in list order where `N` is the
result's length, and every chunk's `totalChunks` equals `N`. -/
theorem chunkBook_numbering (text : Str) (opts : ChunkOptions) :
    (chunkBook text opts).map (fun c => c.chunkNumber) =
      List.range' 1 (chunkBook text opts).length ∧
    ∀ c ∈ chunkBook text opts, c.totalChunks = (chunkBook text opts).length := by
  constructor
  · rw [chunkBook_eq, List.map_map, List.length_map]
    have hcomp : ((fun c => c.chunkNumber) ∘ (fun c : BookChunk =>
        { c with totalChunks := (chunkAll opts (detectChapters text) 1).length })) =
        fun c : BookChunk => c.chunkNumber := rfl
    rw [hcomp]
    exact chunkAll_numbers (detectChapters text) 1
  · intro c hc
    rw [chunkBook_eq] at hc
    rcases List.mem_map.1 hc with ⟨c0, _, he⟩
    rw [chunkBook_eq, List.length_map, ← he]

/-- C8 (witness): instantiated on the text `"a"` with the default policy
and its single chunk. -/
theorem chunkBook_numbering_witness :
    (chunkBook "a".toList DEFAULT_OPTIONS).map (fun c => c.chunkNumber) =
      List.range' 1 (chunkBook "a".toList DEFAULT_OPTIONS).length ∧
    (⟨1, 1, ['a'], 1, 1, none, none, true, 0, 1⟩ : BookChunk).totalChunks =
      (chunkBook "a".toList DEFAULT_OPTIONS).length :=
  ⟨(chunkBook_numbering "a".toList DEFAULT_OPTIONS).1,
   (chunkBook_numbering "a".toList DEFAULT_OPTIONS).2 _ (by decide)⟩
